import Mathlib

/-!
Formal model of the Briscas card game engine and its search driver
(`briscas.py`, with `games.py` as the earlier variant of the same program).

Python cards are 3-element lists `[number, type, value]` compared by value
(list equality), so a card is modelled as a structure with decidable
equality.  The mutable `Briscas` game object (`self`) is modelled by
explicit state passing: every method that mutates `self` returns the new
`Briscas` value.  The `GameState` namedtuple and its `board` dict are
modelled as structures.  `Briscas.result` can fall off the end of the
function (Python then returns `None`): this is the `Option GameState`
in `ResultOut.out`.  Calls that would raise an uncaught exception
(subscripting `None`, popping from an empty list) are modelled by an
outer `Option`: `none` means the Python code would crash.

`board = state.board.copy()` in `result` is a *shallow* dict copy, so the
list stored under `cardsPlayed` is shared with the input state's board;
the two `board['cardsPlayed'].append(...)` calls therefore mutate the
input state.  `ResultOut.mutCardsPlayed` records the contents of the
input state's `cardsPlayed` list after the call, making that side effect
observable in the model.
-/

set_option maxHeartbeats 1000000

/-- A Spanish-deck card: `[number, type, value]` in the source. -/
structure Card where
  rank : Nat
  suit : String
  value : Nat
deriving DecidableEq, Repr

/-- The `board` dictionary of a `GameState` (keys in source order). -/
structure Board where
  playerAHand : List Card
  playerAPlayedCard : Option Card
  playerBPlayedCard : Option Card
  cardsPlayed : List Card
  cardsNotPlayed : List Card
  trumpCard : Card
  playerAPoints : Nat
  playerBPoints : Nat
  leadingPlayer : Option String
deriving DecidableEq, Repr

/-- The `GameState` namedtuple `(to_move, utility, board, moves)`. -/
structure GameState where
  to_move : String
  utility : Nat
  board : Board
  moves : List Card
deriving DecidableEq, Repr

/-- The mutable fields of the `Briscas` game object.  `__init__` leaves
`self.trump` unset (it is assigned later by `initGame` or
`setSimulationCards`), hence `Option Card`.  The attributes
`self.cardsNotPlayed` and `self.initial`, which are written but never read
by any modelled code path (`result`, `utility`, `terminal_test`, the
search), are omitted. -/
structure Briscas where
  cards : List Card
  playerAHand : List Card
  playerBHand : List Card
  playerAPoints : Nat
  playerBPoints : Nat
  trump : Option Card
deriving DecidableEq, Repr

/-- Output of one `result` call: the game object after its mutations, the
returned state (`none` models Python returning `None`), and the contents
of the input state's aliased `cardsPlayed` list after the call. -/
structure ResultOut where
  self : Briscas
  out : Option GameState
  mutCardsPlayed : List Card
deriving DecidableEq, Repr

/-- The hand-replenishment block of `Briscas.result`.  In the source this
block is repeated verbatim inside every winner branch (briscas.py lines
461-469, 476-483, 490-498, 505-512, 519-527, 534-541, 549-557, 564-571),
with `winner`/`loser` instantiated to the winning and losing hands:

    if (len(self.cards) != 0):
        if (len(self.cards) == 1):
            winner.append(self.cards.pop(len(self.cards) - 1))
            loser.append(trumpCard)
        else:
            winner.append(self.cards.pop(len(self.cards) - 1))
            loser.append(self.cards.pop(len(self.cards) - 1))
-/
structure Repl where
  w : List Card
  l : List Card
  stk : List Card
deriving DecidableEq, Repr

def replenish (w l stk : List Card) (t : Card) : Repl :=
  if stk.length = 0 then ⟨w, l, stk⟩
  else if stk.length = 1 then ⟨w ++ stk, l ++ [t], []⟩
  else ⟨w ++ [stk.getLastD t], l ++ [stk.dropLast.getLastD t], stk.dropLast.dropLast⟩

/-- The "A won the hand" tail of a `result` winner branch (points update,
`leadingPlayer` reset, returned `GameState`), e.g. briscas.py 518-531. -/
def Briscas.winnerA (self : Briscas) (board : Board) (cA cB : Card) : ResultOut :=
  let r := replenish self.playerAHand self.playerBHand self.cards board.trumpCard
  let self2 : Briscas := { self with
    playerAHand := r.w
    playerBHand := r.l
    cards := r.stk
    playerAPoints := self.playerAPoints + (cA.value + cB.value) }
  let board2 : Board := { board with leadingPlayer := some "" }
  ⟨self2, some ⟨"A", self2.playerAPoints, board2, self2.playerAHand⟩, board2.cardsPlayed⟩

/-- The "B won the hand" tail of a `result` winner branch, e.g.
briscas.py 533-545.  The returned `utility` field is still
`self.playerAPoints`, as in the source. -/
def Briscas.winnerB (self : Briscas) (board : Board) (cA cB : Card) : ResultOut :=
  let r := replenish self.playerBHand self.playerAHand self.cards board.trumpCard
  let self2 : Briscas := { self with
    playerAHand := r.l
    playerBHand := r.w
    cards := r.stk
    playerBPoints := self.playerBPoints + (cA.value + cB.value) }
  let board2 : Board := { board with leadingPlayer := some "" }
  ⟨self2, some ⟨"B", self2.playerAPoints, board2, self2.playerBHand⟩, board2.cardsPlayed⟩

/-- briscas.py 514-516: the same-suit fallthrough.  Lines 505-512 are the
body of `elif playerBPlayedCard[0] > playerAPlayedCard[0]`, but lines
514-516 sit at the `elif` chain's own indentation, so when none of the
first three comparisons returned, B is credited the points and gets the
move *without* any replenishment unless the rank test fired. -/
def Briscas.winnerBNoRep (self : Briscas) (board : Board) (cA cB : Card) : ResultOut :=
  let self2 : Briscas := { self with playerBPoints := self.playerBPoints + (cA.value + cB.value) }
  let board2 : Board := { board with leadingPlayer := some "" }
  ⟨self2, some ⟨"B", self2.playerAPoints, board2, self2.playerBHand⟩, board2.cardsPlayed⟩

/-- The trick-completion body of `Briscas.result` (briscas.py 433-576),
entered once both played cards are known.  The hand updates use the list
comprehensions of lines 447-448 (`[x for x in hand if x != played]`), the
`cardsNotPlayed` filter is line 452, the two appends to the shared
`cardsPlayed` list are lines 453-454, and the winner cascade is lines
459-576.  When the leading-player default applies but `leadingPlayer` is
neither `'A'` nor `'B'`, control falls off the function: `out = none`. -/
def Briscas.resolveTrick (self : Briscas) (board : Board) (cA cB : Card) : ResultOut :=
  let trumpCard := board.trumpCard
  let self1 : Briscas := { self with
    playerAHand := self.playerAHand.filter (· ≠ cA)
    playerBHand := self.playerBHand.filter (· ≠ cB) }
  let board1 : Board := { board with
    cardsNotPlayed := board.cardsNotPlayed.filter (· ≠ cB)
    cardsPlayed := board.cardsPlayed ++ [cA, cB]
    playerAPlayedCard := none
    playerBPlayedCard := none }
  if cA.suit = cB.suit then
    if cA.value > cB.value then self1.winnerA board1 cA cB
    else if cB.value > cA.value then self1.winnerB board1 cA cB
    else if cA.rank > cB.rank then self1.winnerA board1 cA cB
    else if cB.rank > cA.rank then self1.winnerB board1 cA cB
    else self1.winnerBNoRep board1 cA cB
  else if cA.suit = trumpCard.suit then self1.winnerA board1 cA cB
  else if cB.suit = trumpCard.suit then self1.winnerB board1 cA cB
  else if board1.leadingPlayer = some "A" then self1.winnerA board1 cA cB
  else if board1.leadingPlayer = some "B" then self1.winnerB board1 cA cB
  else ⟨self1, none, board1.cardsPlayed⟩

/-- `Briscas.result(self, state, move)` (briscas.py 414-576).  The two
half-move branches (418-425) record the played card on the shallow board
copy and hand the move to the other side; otherwise the trick completes.
If the completion branch is reached with a missing played card the Python
code would subscript `None` (line 459) and crash: that is the outer
`none`. -/
def Briscas.result (self : Briscas) (state : GameState) (move : Card) : Option ResultOut :=
  let board := state.board
  if state.board.playerBPlayedCard = none ∧ state.to_move = "A" then
    some ⟨self, some ⟨"B", self.playerAPoints,
      { board with leadingPlayer := some "A", playerAPlayedCard := some move },
      self.playerBHand⟩, state.board.cardsPlayed⟩
  else if state.board.playerAPlayedCard = none ∧ state.to_move = "B" then
    some ⟨self, some ⟨"A", self.playerAPoints,
      { board with leadingPlayer := some "B", playerBPlayedCard := some move },
      self.playerAHand⟩, state.board.cardsPlayed⟩
  else
    let board1 := if state.to_move = "A" then { board with playerAPlayedCard := some move }
      else if state.to_move = "B" then { board with playerBPlayedCard := some move }
      else board
    match board1.playerAPlayedCard, board1.playerBPlayedCard with
    | some cA, some cB => some (self.resolveTrick board1 cA cB)
    | _, _ => none

/-- `Briscas.actions(self, state)`: `return state.moves`. -/
def Briscas.actions (_self : Briscas) (state : GameState) : List Card :=
  state.moves

/-- `Briscas.utility(self, state, player)`: `return self.playerAPoints`,
for every `state` and every `player`. -/
def Briscas.utility (self : Briscas) (_state : GameState) (_player : String) : Nat :=
  self.playerAPoints

/-- `Briscas.terminal_test(self, state)` (the `state` argument is unused
by the source). -/
def Briscas.terminal_test (self : Briscas) : Bool :=
  self.cards.length == 0 && self.playerAHand.length == 0 && self.playerBHand.length == 0

/-- The 40-card deck in the order `initGame` builds it (briscas.py
311-356). -/
def standardDeck : List Card :=
  [⟨1, "swords", 11⟩, ⟨2, "swords", 0⟩, ⟨3, "swords", 10⟩, ⟨4, "swords", 0⟩,
   ⟨5, "swords", 0⟩, ⟨6, "swords", 0⟩, ⟨7, "swords", 0⟩, ⟨10, "swords", 2⟩,
   ⟨11, "swords", 3⟩, ⟨12, "swords", 4⟩,
   ⟨1, "coins", 11⟩, ⟨2, "coins", 0⟩, ⟨3, "coins", 10⟩, ⟨4, "coins", 0⟩,
   ⟨5, "coins", 0⟩, ⟨6, "coins", 0⟩, ⟨7, "coins", 0⟩, ⟨10, "coins", 2⟩,
   ⟨11, "coins", 3⟩, ⟨12, "coins", 4⟩,
   ⟨1, "cups", 11⟩, ⟨2, "cups", 0⟩, ⟨3, "cups", 10⟩, ⟨4, "cups", 0⟩,
   ⟨5, "cups", 0⟩, ⟨6, "cups", 0⟩, ⟨7, "cups", 0⟩, ⟨10, "cups", 2⟩,
   ⟨11, "cups", 3⟩, ⟨12, "cups", 4⟩,
   ⟨1, "clubs", 11⟩, ⟨2, "clubs", 0⟩, ⟨3, "clubs", 10⟩, ⟨4, "clubs", 0⟩,
   ⟨5, "clubs", 0⟩, ⟨6, "clubs", 0⟩, ⟨7, "clubs", 0⟩, ⟨10, "clubs", 2⟩,
   ⟨11, "clubs", 3⟩, ⟨12, "clubs", 4⟩]

/-- The game object `initGame` leaves behind after dealing hands `hA`,
`hB`, residual stock `stk` and trump card `t` (the shuffle and the
`randint` draws decide which partition arises; the model quantifies over
all of them). -/
def initBriscas (hA hB stk : List Card) (t : Card) : Briscas :=
  ⟨stk, hA, hB, 0, 0, some t⟩

/-- The `GameState` built at briscas.py line 382: `cardsNotPlayed` is
`self.cards.copy()` extended with player B's hand. -/
def initState (hA hB stk : List Card) (t : Card) : GameState :=
  ⟨"A", 0, ⟨hA, none, none, [], stk ++ hB, t, 0, 0, none⟩, hA⟩

/-- `digitsToNat` folds decimal digits, as `int()` does on a digit string. -/
def digitsToNat (l : List Char) : Nat :=
  l.foldl (fun n c => n * 10 + (c.toNat - 48)) 0

/-- Surrounding-whitespace stripping, as `int()` applies to its input. -/
def pyStrip (l : List Char) : List Char :=
  ((l.dropWhile Char.isWhitespace).reverse.dropWhile Char.isWhitespace).reverse

/-- Python `int(s)` on the inputs this model needs: optional surrounding
whitespace, an optional sign, then at least one decimal digit; anything
else raises `ValueError` (`none`). -/
def pyParseInt (s : String) : Option Int :=
  let t := pyStrip s.data
  match t with
  | [] => none
  | c :: rest =>
    if c = '-' then
      if rest ≠ [] ∧ rest.all Char.isDigit then some (-(digitsToNat rest : Int)) else none
    else if c = '+' then
      if rest ≠ [] ∧ rest.all Char.isDigit then some ((digitsToNat rest : Int)) else none
    else if t.all Char.isDigit then some ((digitsToNat t : Int)) else none

/-- Observable outcome of `query_player`: a returned move, an uncaught
exception, or blocking forever on an exhausted input stream. -/
inductive QueryOutcome where
  | move : Card → QueryOutcome
  | crash : QueryOutcome
  | blocked : QueryOutcome
deriving DecidableEq, Repr

/-- The retry loop of `query_player` (briscas.py 206-226): a non-numeric
input or one with `index >= numberOfCards` re-prompts; any parsed integer
below `numberOfCards` — including every negative one — is accepted. -/
def queryLoop (inputs : List String) (n : Nat) : Option Int :=
  match inputs with
  | [] => none
  | s :: rest =>
    match pyParseInt s with
    | none => queryLoop rest n
    | some i => if (n : Int) ≤ i then queryLoop rest n else some i

/-- `query_player(game, state)` (briscas.py 182-232) with the console
modelled away: `inputs` is the stream of strings typed at the prompt and
`moves` is `game.actions(state)`.  The pre-loop display code only defines
`move_string` for 1-3 moves (and building `movesStr` needs a non-empty
hand), hence `crash` outside that range.  The final
`game.actions(state)[index]` uses Python list indexing: a negative index
in `-n..-1` wraps around; anything below raises `IndexError`. -/
def query_player (inputs : List String) (moves : List Card) : QueryOutcome :=
  if moves.length = 0 ∨ 3 < moves.length then .crash
  else
    match queryLoop inputs moves.length with
    | none => .blocked
    | some i =>
      let j : Int := if 0 ≤ i then i else i + moves.length
      match (if 0 ≤ j then moves.get? j.toNat else none) with
      | some c => .move c
      | none => .crash

/-- `list.pop(i)` for an in-range index; `none` models the `IndexError` /
`ValueError` an out-of-range or empty-list draw would raise. -/
def popAt (l : List Card) (i : Nat) : Option (Card × List Card) :=
  if h : i < l.length then some (l.get ⟨i, h⟩, l.take i ++ l.drop (i + 1)) else none

/-- The dealing loop of `setSimulationCards` (briscas.py 395-397):
`picks` are the successive `random.randint(0, len(self.cards)-1)` draws;
dealt cards are appended to the existing hand. -/
def dealFrom (cards hand : List Card) (picks : List Nat) : Option (List Card × List Card) :=
  match picks with
  | [] => some (cards, hand)
  | i :: rest =>
    match popAt cards i with
    | none => none
    | some (c, cards2) => dealFrom cards2 (hand ++ [c]) rest

/-- `Briscas.setSimulationCards(self, state)` (briscas.py 389-403): the
synthetic game object copies `state.board['playerAHand']` as the mover's
hand, takes `state.board['cardsNotPlayed']` as its deck, deals exactly 3
cards from it into `self.playerBHand` at the injected `randint` indices,
and keeps the rest as the simulation stock.  `self.cardsNotPlayed` and
`self.initial`, also assigned by the source, are never read afterwards. -/
def Briscas.setSimulationCards (self : Briscas) (picks : List Nat) (state : GameState) :
    Option Briscas :=
  if picks.length = 3 then
    match dealFrom state.board.cardsNotPlayed self.playerBHand picks with
    | none => none
    | some (rest, hB) =>
      some ⟨rest, state.board.playerAHand, hB, self.playerAPoints, self.playerBPoints,
        some state.board.trumpCard⟩
  else none

/-- Search values: integers extended with the `-infinity` / `+infinity`
float sentinels of the source. -/
abbrev EInt := WithBot (WithTop Int)

def toEInt (n : Nat) : EInt :=
  (((n : Int) : WithTop Int) : EInt)

mutual

/-- `max_value` of `alphabeta_full_search` (briscas.py 71-83).  `game` is
the real game object captured by `cutoff_test` (line 103 tests
`game.terminal_test(state)`, not `gameSim`); `sim` is the mutable
`gameSim` threaded through every `gameSim.result` call; `fuel` is
`d + 1 - depth`, so `fuel = 0` is the `depth > d` cutoff.  A `None`
state reaching a non-cutoff node crashes on `None.moves` (`none`). -/
def maxValue (game sim : Briscas) (stOpt : Option GameState) (alpha beta : EInt)
    (fuel : Nat) : Option (EInt × Briscas) :=
  match fuel with
  | 0 => some (toEInt sim.playerAPoints, sim)
  | f + 1 =>
    if game.terminal_test then some (toEInt sim.playerAPoints, sim)
    else
      match stOpt with
      | none => none
      | some st => maxLoop game sim st st.moves ⊥ alpha beta f
termination_by (fuel, 0)

/-- The `for a in gameSim.actions(state)` loop of `max_value`. -/
def maxLoop (game sim : Briscas) (st : GameState) (acts : List Card)
    (v alpha beta : EInt) (f : Nat) : Option (EInt × Briscas) :=
  match acts with
  | [] => some (v, sim)
  | a :: rest =>
    match sim.result st a with
    | none => none
    | some r =>
      match minValue game r.self r.out alpha beta f with
      | none => none
      | some (mv, sim2) =>
        let v2 := max v mv
        if beta ≤ v2 then some (v2, sim2)
        else maxLoop game sim2 st rest v2 (max alpha v2) beta f
termination_by (f, acts.length + 1)

/-- `min_value` of `alphabeta_full_search` (briscas.py 85-96). -/
def minValue (game sim : Briscas) (stOpt : Option GameState) (alpha beta : EInt)
    (fuel : Nat) : Option (EInt × Briscas) :=
  match fuel with
  | 0 => some (toEInt sim.playerAPoints, sim)
  | f + 1 =>
    if game.terminal_test then some (toEInt sim.playerAPoints, sim)
    else
      match stOpt with
      | none => none
      | some st => minLoop game sim st st.moves ⊤ alpha beta f
termination_by (fuel, 0)

/-- The `for a in gameSim.actions(state)` loop of `min_value`. -/
def minLoop (game sim : Briscas) (st : GameState) (acts : List Card)
    (v alpha beta : EInt) (f : Nat) : Option (EInt × Briscas) :=
  match acts with
  | [] => some (v, sim)
  | a :: rest =>
    match sim.result st a with
    | none => none
    | some r =>
      match maxValue game r.self r.out alpha beta f with
      | none => none
      | some (mv, sim2) =>
        let v2 := min v mv
        if v2 ≤ alpha then some (v2, sim2)
        else minLoop game sim2 st rest v2 alpha (min beta v2) f
termination_by (f, acts.length + 1)

end

/-- The root action loop of one determinization sample (briscas.py
113-119): each root value is `min_value(gameSim.result(state, a),
best_score, beta, 0)` with `beta` the outer `infinity` constant; the best
action is replaced only on a strictly greater value. -/
def actionLoop (game sim : Briscas) (st : GameState) (acts : List Card)
    (bestA : Option Card) (bestS : EInt) (d : Nat) : Option (Option Card × EInt) :=
  match acts with
  | [] => some (bestA, bestS)
  | a :: rest =>
    match sim.result st a with
    | none => none
    | some r =>
      match minValue game r.self r.out bestS ⊤ (d + 1) with
      | none => none
      | some (v, sim2) =>
        if bestS < v then actionLoop game sim2 st rest (some a) v d
        else actionLoop game sim2 st rest bestA bestS d

/-- The `for i in range(0, 100)` determinization loop (briscas.py
106-119): a fresh `Briscas()` per sample, dealt by `setSimulationCards`;
`best_score` and `best_action` persist across samples.  (`deck` built on
lines 108-109 is shuffled and discarded without use.) -/
def searchSamples (game : Briscas) (state : GameState) (picks : Nat → List Nat) (d : Nat)
    (idxs : List Nat) (bestA : Option Card) (bestS : EInt) : Option (Option Card × EInt) :=
  match idxs with
  | [] => some (bestA, bestS)
  | i :: rest =>
    let gameSim : Briscas := ⟨[], [], [], 0, 0, none⟩
    match gameSim.setSimulationCards (picks i) state with
    | none => none
    | some sim =>
      match actionLoop game sim state (sim.actions state) bestA bestS d with
      | none => none
      | some (bA, bS) => searchSamples game state picks d rest bA bS

/-- `alphabeta_full_search(state, game, d=10)` (briscas.py 61-121),
with the per-sample `randint` draws injected as `picks`. -/
def alphabeta_full_search (game : Briscas) (state : GameState) (picks : Nat → List Nat)
    (d : Nat) : Option (Option Card) :=
  (searchSamples game state picks d (List.range 100) none ⊥).map Prod.fst

/-- Specification-side recorder for the determinization loop: it runs the
identical computations but returns the list of `(action, recorded value)`
pairs, in evaluation order, instead of tracking a best action inline.
The running best score must still be threaded because the source passes
`best_score` as the root alpha. -/
def actionRecord (game sim : Briscas) (st : GameState) (acts : List Card)
    (bestS : EInt) (d : Nat) : Option (List (Card × EInt) × EInt × Briscas) :=
  match acts with
  | [] => some ([], bestS, sim)
  | a :: rest =>
    match sim.result st a with
    | none => none
    | some r =>
      match minValue game r.self r.out bestS ⊤ (d + 1) with
      | none => none
      | some (v, sim2) =>
        match actionRecord game sim2 st rest (if bestS < v then v else bestS) d with
        | none => none
        | some (recs, bS3, sim3) => some ((a, v) :: recs, bS3, sim3)

/-- Specification-side list of all values recorded across the given
determinization samples. -/
def sampleRecord (game : Briscas) (state : GameState) (picks : Nat → List Nat) (d : Nat)
    (idxs : List Nat) (bestS : EInt) : Option (List (Card × EInt)) :=
  match idxs with
  | [] => some []
  | i :: rest =>
    let gameSim : Briscas := ⟨[], [], [], 0, 0, none⟩
    match gameSim.setSimulationCards (picks i) state with
    | none => none
    | some sim =>
      match actionRecord game sim state (sim.actions state) bestS d with
      | none => none
      | some (recs, bS2, _) =>
        match sampleRecord game state picks d rest bS2 with
        | none => none
        | some recs2 => some (recs ++ recs2)

/-- One step of first-seen maximum selection over recorded values. -/
def pickStep (acc : Option Card × EInt) (p : Card × EInt) : Option Card × EInt :=
  if acc.2 < p.2 then (some p.1, p.2) else acc

/-- Specification-side selection: the action of the single highest
recorded value, ties broken in favour of the first-seen pair. -/
def pickFirstMax (recs : List (Card × EInt)) : Option Card × EInt :=
  recs.foldl pickStep (none, ⊥)

/-- Specification-side trick winner, following the branch structure of
`Briscas.result` (with the same-suit tier comparing point values first
and ranks only on a value tie): `some "A"` / `some "B"` is the winning
side, `none` the fall-off-the-end case. -/
def trickWinnerO (cA cB t : Card) (ld : Option String) : Option String :=
  if cA.suit = cB.suit then
    if cA.value > cB.value then some "A"
    else if cB.value > cA.value then some "B"
    else if cA.rank > cB.rank then some "A"
    else some "B"
  else if cA.suit = t.suit then some "A"
  else if cB.suit = t.suit then some "B"
  else if ld = some "A" then some "A"
  else if ld = some "B" then some "B"
  else none

/-- States reachable from an initial deal by legal moves, paired with the
game object that `play_game` mutates alongside.  The deal is any
partition of the 40-card deck into two 3-card hands, a trump card and the
stock. -/
inductive Reach : Briscas → GameState → Prop where
  | init (hA hB stk : List Card) (t : Card)
      (hperm : (hA ++ hB ++ stk ++ [t]).Perm standardDeck)
      (hA3 : hA.length = 3) (hB3 : hB.length = 3) :
      Reach (initBriscas hA hB stk t) (initState hA hB stk t)
  | step (b : Briscas) (st : GameState) (m : Card) (r : ResultOut) (st2 : GameState) :
      Reach b st → m ∈ b.actions st → b.result st m = some r → r.out = some st2 →
      Reach r.self st2

/-- A fixed deal used as concrete input: player A holds swords 3, 4, 5;
player B holds swords 1, 6, 7; the trump card is the coins 1; the stock
is the remaining 33 cards in deck order (draws pop from the right end). -/
def traceHA : List Card :=
  [⟨3, "swords", 10⟩, ⟨4, "swords", 0⟩, ⟨5, "swords", 0⟩]

def traceHB : List Card :=
  [⟨1, "swords", 11⟩, ⟨6, "swords", 0⟩, ⟨7, "swords", 0⟩]

def traceTrump : Card := ⟨1, "coins", 11⟩

def traceStock : List Card :=
  [⟨2, "swords", 0⟩, ⟨10, "swords", 2⟩, ⟨11, "swords", 3⟩, ⟨12, "swords", 4⟩,
   ⟨2, "coins", 0⟩, ⟨3, "coins", 10⟩, ⟨4, "coins", 0⟩, ⟨5, "coins", 0⟩,
   ⟨6, "coins", 0⟩, ⟨7, "coins", 0⟩, ⟨10, "coins", 2⟩, ⟨11, "coins", 3⟩,
   ⟨12, "coins", 4⟩,
   ⟨1, "cups", 11⟩, ⟨2, "cups", 0⟩, ⟨3, "cups", 10⟩, ⟨4, "cups", 0⟩,
   ⟨5, "cups", 0⟩, ⟨6, "cups", 0⟩, ⟨7, "cups", 0⟩, ⟨10, "cups", 2⟩,
   ⟨11, "cups", 3⟩, ⟨12, "cups", 4⟩,
   ⟨1, "clubs", 11⟩, ⟨2, "clubs", 0⟩, ⟨3, "clubs", 10⟩, ⟨4, "clubs", 0⟩,
   ⟨5, "clubs", 0⟩, ⟨6, "clubs", 0⟩, ⟨7, "clubs", 0⟩, ⟨10, "clubs", 2⟩,
   ⟨11, "clubs", 3⟩, ⟨12, "clubs", 4⟩]

def traceB0 : Briscas := initBriscas traceHA traceHB traceStock traceTrump

def traceSt0 : GameState := initState traceHA traceHB traceStock traceTrump

/-- First half-move of the first trick: player A leads the 3 of swords. -/
def traceR1 : ResultOut :=
  (traceB0.result traceSt0 ⟨3, "swords", 10⟩).getD ⟨traceB0, none, []⟩

def traceB1 : Briscas := traceR1.self

def traceSt1 : GameState := traceR1.out.getD traceSt0

/-- Second half-move: player B answers with the 1 of swords, completing
the trick. -/
def traceR2 : ResultOut :=
  (traceB1.result traceSt1 ⟨1, "swords", 11⟩).getD ⟨traceB1, none, []⟩

def traceB2 : Briscas := traceR2.self

def traceSt2 : GameState := traceR2.out.getD traceSt1

/-- The acting side opens a trick in `st`: the branch conditions of
briscas.py 418 / 422. -/
def FirstHalf (st : GameState) : Prop :=
  st.board.playerBPlayedCard = none ∧ st.to_move = "A"
    ∨ st.board.playerAPlayedCard = none ∧ st.to_move = "B"

/-- Playing `m` in `st` completes a trick in which A contributed `cA` and
B contributed `cB`. -/
def CompletesWith (st : GameState) (m cA cB : Card) : Prop :=
  st.board.playerAPlayedCard = some cA ∧ st.board.playerBPlayedCard = none
      ∧ st.to_move = "B" ∧ m = cB
    ∨ st.board.playerBPlayedCard = some cB ∧ st.board.playerAPlayedCard = none
      ∧ st.to_move = "A" ∧ m = cA

/-- The trick-completing input state as the *caller* still sees it after
the first `result` call: its aliased `cardsPlayed` list now holds the
appended cards. -/
def traceSt1m : GameState :=
  { traceSt1 with board := { traceSt1.board with cardsPlayed := traceR2.mutCardsPlayed } }

/-- Evaluating the same trick-completing call a second time, as the
determinism claim would require to return the same successor. -/
def traceR2r : ResultOut :=
  (traceB2.result traceSt1m ⟨1, "swords", 11⟩).getD ⟨traceB2, none, []⟩

/-- Summed point value of a list of cards. -/
def sumValues (l : List Card) : Nat :=
  (l.map Card.value).sum

/-- Summed point value of a multiset of cards. -/
def mval (s : Multiset Card) : Nat :=
  (s.map Card.value).sum

/-- The multiset of cards sitting in the two hands, the stock and the
played-cards log. -/
def poolL (b : Briscas) (P : List Card) : Multiset Card :=
  (b.playerAHand : Multiset Card) + (b.playerBHand : Multiset Card)
    + (b.cards : Multiset Card) + (P : Multiset Card)

/-- The full 40-card deck as a multiset. -/
def deckM : Multiset Card :=
  (standardDeck : Multiset Card)

/-- Trick-phase invariant: either no card is committed, or exactly the
leader's card is committed, the opponent is to move, and the committed
card is still in the leader's hand. -/
def PhaseInv (b : Briscas) (st : GameState) : Prop :=
  (st.board.playerAPlayedCard = none ∧ st.board.playerBPlayedCard = none
      ∧ (st.to_move = "A" ∨ st.to_move = "B"))
  ∨ (∃ c, st.board.playerAPlayedCard = some c ∧ st.board.playerBPlayedCard = none
      ∧ st.to_move = "B" ∧ st.board.leadingPlayer = some "A" ∧ c ∈ b.playerAHand)
  ∨ (∃ c, st.board.playerBPlayedCard = some c ∧ st.board.playerAPlayedCard = none
      ∧ st.to_move = "A" ∧ st.board.leadingPlayer = some "B" ∧ c ∈ b.playerBHand)

/-- The inductive invariant of reachable (game object, state) pairs: the
hands, stock and played log — plus the trump card until it is drawn —
form the 40-card deck; the trump is drawn only once the stock is gone
(and the stock length stays odd until then); the two scores sum to the
point value of the played log; `moves` is the acting player's hand; and
the trick phase is consistent. -/
def GameInv (b : Briscas) (st : GameState) : Prop :=
  ((poolL b st.board.cardsPlayed + {st.board.trumpCard} = deckM ∧ Odd b.cards.length)
    ∨ (poolL b st.board.cardsPlayed = deckM ∧ b.cards = []))
  ∧ st.board.trumpCard ∈ deckM
  ∧ b.playerAPoints + b.playerBPoints = sumValues st.board.cardsPlayed
  ∧ st.moves = (if st.to_move = "A" then b.playerAHand else b.playerBHand)
  ∧ PhaseInv b st

/-- Concrete one-card-stock trick used to witness the replenishment rule:
cups are led, the stock holds a single club, the trump card is the coins
1. -/
def c8Self : Briscas :=
  ⟨[⟨2, "clubs", 0⟩], [⟨3, "cups", 10⟩, ⟨4, "cups", 0⟩, ⟨5, "cups", 0⟩],
   [⟨2, "cups", 0⟩, ⟨6, "cups", 0⟩, ⟨7, "cups", 0⟩], 0, 0, none⟩

def c8Board : Board :=
  ⟨[], none, none, [], [], ⟨1, "coins", 11⟩, 0, 0, some "A"⟩

/-- The winner cascade of `resolveTrick` agrees with the tagged decision
procedure `trickWinnerO`. -/
theorem resolveTrick_to_move (self : Briscas) (bd : Board) (cA cB : Card) :
    (self.resolveTrick bd cA cB).out.map GameState.to_move
      = trickWinnerO cA cB bd.trumpCard bd.leadingPlayer := by
  simp only [Briscas.resolveTrick, trickWinnerO, Briscas.winnerA, Briscas.winnerB,
    Briscas.winnerBNoRep]
  split_ifs <;> rfl

/-- Every branch of `resolveTrick` appends both played cards to the
shared `cardsPlayed` list. -/
theorem resolveTrick_mut (self : Briscas) (bd : Board) (cA cB : Card) :
    (self.resolveTrick bd cA cB).mutCardsPlayed = bd.cardsPlayed ++ [cA, cB] := by
  simp only [Briscas.resolveTrick, Briscas.winnerA, Briscas.winnerB, Briscas.winnerBNoRep]
  split_ifs <;> rfl

/-- The winning side of a resolved trick is credited the sum of the two
played point values; the other side's score is untouched. -/
theorem resolveTrick_points (self : Briscas) (bd : Board) (cA cB : Card) :
    (trickWinnerO cA cB bd.trumpCard bd.leadingPlayer = some "A" →
        (self.resolveTrick bd cA cB).self.playerAPoints
            = self.playerAPoints + (cA.value + cB.value)
          ∧ (self.resolveTrick bd cA cB).self.playerBPoints = self.playerBPoints)
    ∧ (trickWinnerO cA cB bd.trumpCard bd.leadingPlayer = some "B" →
        (self.resolveTrick bd cA cB).self.playerBPoints
            = self.playerBPoints + (cA.value + cB.value)
          ∧ (self.resolveTrick bd cA cB).self.playerAPoints = self.playerAPoints) := by
  simp only [Briscas.resolveTrick, trickWinnerO, Briscas.winnerA, Briscas.winnerB,
    Briscas.winnerBNoRep]
  split_ifs <;> simp

/-- A trick-completing call dispatches to `resolveTrick` on the board
with the mover's card recorded. -/
theorem result_completion (self : Briscas) (st : GameState) (m cA cB : Card)
    (h : CompletesWith st m cA cB) :
    ∃ bd1 : Board, self.result st m = some (self.resolveTrick bd1 cA cB)
      ∧ bd1.trumpCard = st.board.trumpCard
      ∧ bd1.leadingPlayer = st.board.leadingPlayer
      ∧ bd1.cardsPlayed = st.board.cardsPlayed
      ∧ bd1.cardsNotPlayed = st.board.cardsNotPlayed
      ∧ bd1.playerAPlayedCard = some cA ∧ bd1.playerBPlayedCard = some cB := by
  rcases h with ⟨h1, h2, h3, h4⟩ | ⟨h1, h2, h3, h4⟩
  · subst h4
    refine ⟨{ st.board with playerBPlayedCard := some m }, ?_, rfl, rfl, rfl, rfl, by simp [h1], rfl⟩
    simp [Briscas.result, h1, h2, h3]
  · subst h4
    refine ⟨{ st.board with playerAPlayedCard := some m }, ?_, rfl, rfl, rfl, rfl, rfl, by simp [h1]⟩
    simp [Briscas.result, h1, h2, h3]

/-- C1 counterexample: in a reachable trick with (3, swords) led by A and
(1, swords) answered by B, `result` gives the trick to the side that
played the 1 (point value 11 beats point value 10) and credits it the 21
points — the claim's "higher rank wins, comparison is by rank not point
value" predicts the opposite winner at exactly this input. -/
theorem c1_cex :
    (traceB1.result traceSt1 ⟨1, "swords", 11⟩).map
        (fun r => (r.out.map GameState.to_move, r.self.playerAPoints, r.self.playerBPoints))
      = some (some "B", 0, 21)
    ∧ traceSt1.board.playerAPlayedCard = some ⟨3, "swords", 10⟩ := by
  constructor <;> rfl

/-- C1 (amended): when a second played card completes a trick, `result`
resolves the winner by the three-tier rule of `trickWinnerO`: (1) shared
suit — higher *point value* wins, rank deciding only a value tie; (2)
else the side whose card matches the trump suit; (3) else the recorded
leader; the winner is credited the sum of both point values.  In
particular (3, swords) versus (1, swords) is won by the side that played
the 1, which gains 10+11 = 21 points. -/
theorem c1_same_suit_by_value (self : Briscas) (st : GameState) (m cA cB : Card)
    (h : CompletesWith st m cA cB) :
    ∃ r : ResultOut, self.result st m = some r
      ∧ r.out.map GameState.to_move
          = trickWinnerO cA cB st.board.trumpCard st.board.leadingPlayer
      ∧ (trickWinnerO cA cB st.board.trumpCard st.board.leadingPlayer = some "A" →
          r.self.playerAPoints = self.playerAPoints + (cA.value + cB.value)
            ∧ r.self.playerBPoints = self.playerBPoints)
      ∧ (trickWinnerO cA cB st.board.trumpCard st.board.leadingPlayer = some "B" →
          r.self.playerBPoints = self.playerBPoints + (cA.value + cB.value)
            ∧ r.self.playerAPoints = self.playerAPoints) := by
  obtain ⟨bd1, hres, ht, hl, -, -, -, -⟩ := result_completion self st m cA cB h
  have hmv := resolveTrick_to_move self bd1 cA cB
  have hpts := resolveTrick_points self bd1 cA cB
  rw [ht, hl] at hmv hpts
  exact ⟨_, hres, hmv, hpts.1, hpts.2⟩

/-- C1 witness: the amended rule instantiated at the (3, swords) /
(1, swords) trick of the concrete trace. -/
theorem c1_witness :
    ∃ r : ResultOut, traceB1.result traceSt1 ⟨1, "swords", 11⟩ = some r
      ∧ r.out.map GameState.to_move
          = trickWinnerO ⟨3, "swords", 10⟩ ⟨1, "swords", 11⟩
              traceSt1.board.trumpCard traceSt1.board.leadingPlayer
      ∧ (trickWinnerO ⟨3, "swords", 10⟩ ⟨1, "swords", 11⟩
            traceSt1.board.trumpCard traceSt1.board.leadingPlayer = some "A" →
          r.self.playerAPoints = traceB1.playerAPoints + (10 + 11)
            ∧ r.self.playerBPoints = traceB1.playerBPoints)
      ∧ (trickWinnerO ⟨3, "swords", 10⟩ ⟨1, "swords", 11⟩
            traceSt1.board.trumpCard traceSt1.board.leadingPlayer = some "B" →
          r.self.playerBPoints = traceB1.playerBPoints + (10 + 11)
            ∧ r.self.playerAPoints = traceB1.playerAPoints) :=
  c1_same_suit_by_value traceB1 traceSt1 ⟨1, "swords", 11⟩ ⟨3, "swords", 10⟩
    ⟨1, "swords", 11⟩ (Or.inl ⟨rfl, rfl, rfl, rfl⟩)

/-- C2 counterexample: evaluating the same trick-completing
`result(state, card)` twice — the input state as the caller still holds
it after the first call — returns two different successor states: the
game object's hands, stock and scores were mutated by the first call, so
the repeat draws two further stock cards and doubles the winner's
points. -/
theorem c2_cex :
    traceB1.result traceSt1 ⟨1, "swords", 11⟩ = some traceR2
    ∧ traceB2.result traceSt1m ⟨1, "swords", 11⟩ = some traceR2r
    ∧ traceR2r.out ≠ traceR2.out
    ∧ traceR2r.self.playerBPoints = 42 ∧ traceR2.self.playerBPoints = 21 := by
  refine ⟨rfl, rfl, ?_, rfl, rfl⟩
  decide

/-- A trick-opening `result` call leaves the game object and the shared
`cardsPlayed` list untouched, so an immediate repeat returns the same
output. -/
theorem result_first_half (self : Briscas) (st : GameState) (c : Card)
    (h : FirstHalf st) :
    ∃ r : ResultOut, self.result st c = some r ∧ r.self = self
      ∧ r.mutCardsPlayed = st.board.cardsPlayed
      ∧ r.self.result st c = self.result st c := by
  rcases h with ⟨h1, h2⟩ | ⟨h1, h2⟩
  · refine ⟨⟨self, some ⟨"B", self.playerAPoints,
        { st.board with leadingPlayer := some "A", playerAPlayedCard := some c },
        self.playerBHand⟩, st.board.cardsPlayed⟩, ?_, rfl, rfl, rfl⟩
    simp [Briscas.result, h1, h2]
  · have hne : ¬(st.board.playerBPlayedCard = none ∧ st.to_move = "A") := by
      rintro ⟨-, hB⟩
      rw [h2] at hB
      exact absurd hB (by decide)
    refine ⟨⟨self, some ⟨"A", self.playerAPoints,
        { st.board with leadingPlayer := some "B", playerBPlayedCard := some c },
        self.playerAHand⟩, st.board.cardsPlayed⟩, ?_, rfl, rfl, rfl⟩
    simp [Briscas.result, h1, h2, hne]

/-- C2 (amended): `result` is pure only on trick-opening half-moves: the
game object comes back unchanged, the input state is untouched, and
re-evaluating the call yields the identical output.  (On trick-completing
moves the call reads and mutates the game object, so repetition yields a
different successor, as the counterexample shows; `result` is
deterministic only as a function of the (game object, state, card)
triple.) -/
theorem c2_first_half_pure (self : Briscas) (st : GameState) (c : Card)
    (h : FirstHalf st) :
    ∃ r : ResultOut, self.result st c = some r ∧ r.self = self
      ∧ r.mutCardsPlayed = st.board.cardsPlayed
      ∧ r.self.result st c = self.result st c :=
  result_first_half self st c h

/-- C2 witness: the pure-repetition guarantee at the concrete opening
move of the trace. -/
theorem c2_witness :
    ∃ r : ResultOut, traceB0.result traceSt0 ⟨3, "swords", 10⟩ = some r ∧ r.self = traceB0
      ∧ r.mutCardsPlayed = traceSt0.board.cardsPlayed
      ∧ r.self.result traceSt0 ⟨3, "swords", 10⟩ = traceB0.result traceSt0 ⟨3, "swords", 10⟩ :=
  c2_first_half_pure traceB0 traceSt0 ⟨3, "swords", 10⟩ (Or.inl ⟨rfl, rfl⟩)

/-- C3 counterexample: `result` called with the 1 of coins, a card in
nobody's hand, neither signals an error nor refuses — it returns a
successor state recording the foreign card as played. -/
theorem c3_cex :
    (⟨1, "coins", 11⟩ : Card) ∉ traceSt0.moves
    ∧ (⟨1, "coins", 11⟩ : Card) ∉ traceB0.playerAHand
    ∧ (traceB0.result traceSt0 ⟨1, "coins", 11⟩).map (fun r => r.out.isSome) = some true := by
  refine ⟨by decide, by decide, rfl⟩

/-- C3 (amended): `result` performs no hand-membership validation: on a
trick-opening move it accepts *any* card value whatsoever and returns the
successor state that records it as played (on trick completion the
absent card is likewise silently ignored by the removal filter).  No
`IllegalMove` failure path exists. -/
theorem c3_no_membership_check (self : Briscas) (st : GameState) (c : Card)
    (h : FirstHalf st) :
    ∃ r : ResultOut, self.result st c = some r ∧ r.out.isSome
      ∧ (st.to_move = "A" → r.out = some ⟨"B", self.playerAPoints,
          { st.board with leadingPlayer := some "A", playerAPlayedCard := some c },
          self.playerBHand⟩)
      ∧ (st.to_move = "B" → r.out = some ⟨"A", self.playerAPoints,
          { st.board with leadingPlayer := some "B", playerBPlayedCard := some c },
          self.playerAHand⟩) := by
  rcases h with ⟨h1, h2⟩ | ⟨h1, h2⟩
  · refine ⟨⟨self, some ⟨"B", self.playerAPoints,
        { st.board with leadingPlayer := some "A", playerAPlayedCard := some c },
        self.playerBHand⟩, st.board.cardsPlayed⟩, ?_, rfl, fun _ => rfl, fun hB => ?_⟩
    · simp [Briscas.result, h1, h2]
    · rw [h2] at hB
      exact absurd hB (by decide)
  · have hne : ¬(st.board.playerBPlayedCard = none ∧ st.to_move = "A") := by
      rintro ⟨-, hB⟩
      rw [h2] at hB
      exact absurd hB (by decide)
    refine ⟨⟨self, some ⟨"A", self.playerAPoints,
        { st.board with leadingPlayer := some "B", playerBPlayedCard := some c },
        self.playerAHand⟩, st.board.cardsPlayed⟩, ?_, rfl, fun hA => ?_, fun _ => rfl⟩
    · simp [Briscas.result, h1, h2, hne]
    · rw [h2] at hA
      exact absurd hA (by decide)

/-- C3 witness: the no-validation guarantee at a concrete card that is in
nobody's hand. -/
theorem c3_witness :
    ∃ r : ResultOut, traceB0.result traceSt0 ⟨1, "coins", 11⟩ = some r ∧ r.out.isSome
      ∧ (traceSt0.to_move = "A" → r.out = some ⟨"B", traceB0.playerAPoints,
          { traceSt0.board with
            leadingPlayer := some "A"
            playerAPlayedCard := some ⟨1, "coins", 11⟩ },
          traceB0.playerBHand⟩)
      ∧ (traceSt0.to_move = "B" → r.out = some ⟨"A", traceB0.playerAPoints,
          { traceSt0.board with
            leadingPlayer := some "B"
            playerBPlayedCard := some ⟨1, "coins", 11⟩ },
          traceB0.playerAHand⟩) :=
  c3_no_membership_check traceB0 traceSt0 ⟨1, "coins", 11⟩ (Or.inl ⟨rfl, rfl⟩)

/-- C6 counterexample: the trick-completing call appends both played
cards to the input state's `cardsPlayed` list (shared through the shallow
`board.copy()`), so the original state is no longer what it was. -/
theorem c6_cex :
    traceB1.result traceSt1 ⟨1, "swords", 11⟩ = some traceR2
    ∧ traceSt1.board.cardsPlayed = []
    ∧ traceR2.mutCardsPlayed = [⟨3, "swords", 10⟩, ⟨1, "swords", 11⟩]
    ∧ traceR2.mutCardsPlayed ≠ traceSt1.board.cardsPlayed := by
  exact ⟨rfl, rfl, rfl, by decide⟩

/-- C6 (amended): a trick-opening `result` call leaves the input state
(and the game object) untouched and returns exactly one successor; a
trick-completing call also returns exactly one successor state (given
the leader recorded by the opening half-move) but mutates the input
state's shared `cardsPlayed` list by appending both played cards, and
mutates the game object's hands, stock and scores. -/
theorem c6_mutation :
    (∀ (self : Briscas) (st : GameState) (c : Card), FirstHalf st →
      ∃ r : ResultOut, self.result st c = some r ∧ r.self = self
        ∧ r.mutCardsPlayed = st.board.cardsPlayed)
    ∧ (∀ (self : Briscas) (st : GameState) (m cA cB : Card), CompletesWith st m cA cB →
      ∃ r : ResultOut, self.result st m = some r
        ∧ r.mutCardsPlayed = st.board.cardsPlayed ++ [cA, cB]
        ∧ (st.board.leadingPlayer = some "A" ∨ st.board.leadingPlayer = some "B" →
            r.out.isSome)) := by
  constructor
  · intro self st c h
    obtain ⟨r, hr, hself, hmut, -⟩ := result_first_half self st c h
    exact ⟨r, hr, hself, hmut⟩
  · intro self st m cA cB h
    obtain ⟨bd1, hres, ht, hl, hcp, -, -, -⟩ := result_completion self st m cA cB h
    refine ⟨_, hres, ?_, ?_⟩
    · rw [resolveTrick_mut, hcp]
    · intro hld
      have hmv := resolveTrick_to_move self bd1 cA cB
      rw [ht, hl] at hmv
      rcases hld with hld | hld <;>
        · rw [hld] at hmv
          cases hx : (self.resolveTrick bd1 cA cB).out with
          | some s => simp [hx]
          | none =>
            rw [hx] at hmv
            unfold trickWinnerO at hmv
            split_ifs at hmv <;> simp_all

/-- C6 witness: the mutation characterization at the concrete opening and
completing moves of the trace. -/
theorem c6_witness :
    (∃ r : ResultOut, traceB0.result traceSt0 ⟨3, "swords", 10⟩ = some r ∧ r.self = traceB0
      ∧ r.mutCardsPlayed = traceSt0.board.cardsPlayed)
    ∧ (∃ r : ResultOut, traceB1.result traceSt1 ⟨1, "swords", 11⟩ = some r
      ∧ r.mutCardsPlayed
          = traceSt1.board.cardsPlayed ++ [⟨3, "swords", 10⟩, ⟨1, "swords", 11⟩]
      ∧ (traceSt1.board.leadingPlayer = some "A" ∨ traceSt1.board.leadingPlayer = some "B" →
          r.out.isSome)) :=
  ⟨c6_mutation.1 traceB0 traceSt0 ⟨3, "swords", 10⟩ (Or.inl ⟨rfl, rfl⟩),
   c6_mutation.2 traceB1 traceSt1 ⟨1, "swords", 11⟩ ⟨3, "swords", 10⟩ ⟨1, "swords", 11⟩
     (Or.inl ⟨rfl, rfl, rfl, rfl⟩)⟩

/-- C10: in the leader-default case of trick resolution (the two played
cards of different suits, neither matching the trump suit), `result`
returns a successor state exactly when the recorded leader is `'A'` or
`'B'`; for any other leader value — such as the `''` it is reset to after
every resolution — no branch applies and the call returns no state. -/
theorem c10_leader_default (self : Briscas) (st : GameState) (m cA cB : Card)
    (h : CompletesWith st m cA cB)
    (hAB : cA.suit ≠ cB.suit) (hAt : cA.suit ≠ st.board.trumpCard.suit)
    (hBt : cB.suit ≠ st.board.trumpCard.suit) :
    ∃ r : ResultOut, self.result st m = some r
      ∧ (r.out.isSome
          ↔ st.board.leadingPlayer = some "A" ∨ st.board.leadingPlayer = some "B") := by
  obtain ⟨bd1, hres, ht, hl, -, -, -, -⟩ := result_completion self st m cA cB h
  refine ⟨_, hres, ?_⟩
  have hmv := resolveTrick_to_move self bd1 cA cB
  rw [ht, hl] at hmv
  unfold trickWinnerO at hmv
  rw [if_neg hAB, if_neg hAt, if_neg hBt] at hmv
  constructor
  · intro hs
    obtain ⟨s, hs2⟩ := Option.isSome_iff_exists.mp hs
    rw [hs2] at hmv
    by_contra hcon
    push_neg at hcon
    rw [if_neg hcon.1, if_neg hcon.2] at hmv
    exact Option.noConfusion hmv
  · intro hld
    cases hx : (self.resolveTrick bd1 cA cB).out with
    | some s => rfl
    | none =>
      rw [hx] at hmv
      rcases hld with hld | hld <;> rw [hld] at hmv <;> split_ifs at hmv <;> simp_all

/-- C10 witness: a concrete leader-default completion whose board carries
the reset leader `''`: the call returns no successor state. -/
theorem c10_witness :
    ∃ r : ResultOut,
      Briscas.result ⟨[], [⟨2, "cups", 0⟩], [⟨2, "clubs", 0⟩], 0, 0, none⟩
        ⟨"B", 0, ⟨[], some ⟨2, "cups", 0⟩, none, [], [], ⟨1, "coins", 11⟩, 0, 0, some ""⟩,
          [⟨2, "clubs", 0⟩]⟩ ⟨2, "clubs", 0⟩ = some r
      ∧ (r.out.isSome ↔ (some "" : Option String) = some "A" ∨ (some "" : Option String) = some "B") :=
  c10_leader_default ⟨[], [⟨2, "cups", 0⟩], [⟨2, "clubs", 0⟩], 0, 0, none⟩
    ⟨"B", 0, ⟨[], some ⟨2, "cups", 0⟩, none, [], [], ⟨1, "coins", 11⟩, 0, 0, some ""⟩,
      [⟨2, "clubs", 0⟩]⟩ ⟨2, "clubs", 0⟩ ⟨2, "cups", 0⟩ ⟨2, "clubs", 0⟩
    (Or.inl ⟨rfl, rfl, rfl, rfl⟩) (by decide) (by decide) (by decide)

/-- C9 (code bug): with a full 3-card hand, typing `-4` parses as an
integer, passes the only range check (`index >= numberOfCards`), and then
`game.actions(state)[-4]` raises an uncaught `IndexError` — the interactive
player crashes the driver instead of re-prompting.  Typing `-1` is
likewise accepted without a re-prompt (it wraps to the last card), while
non-numeric and too-large inputs are correctly re-prompted. -/
theorem c9_negative_index_crash :
    query_player ["-4"] [⟨1, "swords", 11⟩, ⟨2, "swords", 0⟩, ⟨3, "swords", 10⟩]
        = QueryOutcome.crash
    ∧ query_player ["-1"] [⟨1, "swords", 11⟩, ⟨2, "swords", 0⟩, ⟨3, "swords", 10⟩]
        = QueryOutcome.move ⟨3, "swords", 10⟩
    ∧ query_player ["junk", "5", "2"] [⟨1, "swords", 11⟩, ⟨2, "swords", 0⟩, ⟨3, "swords", 10⟩]
        = QueryOutcome.move ⟨3, "swords", 10⟩ := by
  decide

theorem replenish_nil (w l : List Card) (t : Card) : replenish w l [] t = ⟨w, l, []⟩ := by
  simp [replenish]

theorem replenish_one (w l stk : List Card) (t : Card) (h : stk.length = 1) :
    replenish w l stk t = ⟨w ++ stk, l ++ [t], []⟩ := by
  simp [replenish, h]

theorem replenish_big (w l stk : List Card) (t : Card) (h : 2 ≤ stk.length) :
    replenish w l stk t
      = ⟨w ++ [stk.getLastD t], l ++ [stk.dropLast.getLastD t], stk.dropLast.dropLast⟩ := by
  have h0 : ¬stk.length = 0 := by omega
  have h1 : ¬stk.length = 1 := by omega
  simp [replenish, h0, h1]

/-- For two distinct played cards, each winner branch of `resolveTrick`
replenishes via `replenish` with the winner's filtered hand in first
(draw-first) position. -/
theorem resolveTrick_winner_shape (self : Briscas) (bd : Board) (cA cB : Card)
    (hne : cA ≠ cB) :
    (trickWinnerO cA cB bd.trumpCard bd.leadingPlayer = some "A" →
        (self.resolveTrick bd cA cB).self.playerAHand
            = (replenish (self.playerAHand.filter (· ≠ cA))
                (self.playerBHand.filter (· ≠ cB)) self.cards bd.trumpCard).w
          ∧ (self.resolveTrick bd cA cB).self.playerBHand
            = (replenish (self.playerAHand.filter (· ≠ cA))
                (self.playerBHand.filter (· ≠ cB)) self.cards bd.trumpCard).l
          ∧ (self.resolveTrick bd cA cB).self.cards
            = (replenish (self.playerAHand.filter (· ≠ cA))
                (self.playerBHand.filter (· ≠ cB)) self.cards bd.trumpCard).stk
          ∧ (self.resolveTrick bd cA cB).out.isSome)
    ∧ (trickWinnerO cA cB bd.trumpCard bd.leadingPlayer = some "B" →
        (self.resolveTrick bd cA cB).self.playerBHand
            = (replenish (self.playerBHand.filter (· ≠ cB))
                (self.playerAHand.filter (· ≠ cA)) self.cards bd.trumpCard).w
          ∧ (self.resolveTrick bd cA cB).self.playerAHand
            = (replenish (self.playerBHand.filter (· ≠ cB))
                (self.playerAHand.filter (· ≠ cA)) self.cards bd.trumpCard).l
          ∧ (self.resolveTrick bd cA cB).self.cards
            = (replenish (self.playerBHand.filter (· ≠ cB))
                (self.playerAHand.filter (· ≠ cA)) self.cards bd.trumpCard).stk
          ∧ (self.resolveTrick bd cA cB).out.isSome) := by
  have hcc : ¬(cA.suit = cB.suit ∧ ¬cA.value > cB.value ∧ ¬cB.value > cA.value
      ∧ ¬cA.rank > cB.rank ∧ ¬cB.rank > cA.rank) := by
    rintro ⟨hs, h1, h2, h3, h4⟩
    apply hne
    cases cA
    cases cB
    simp_all
    omega
  unfold Briscas.resolveTrick trickWinnerO Briscas.winnerA Briscas.winnerB Briscas.winnerBNoRep
  split_ifs <;> simp_all

/-- On a duplicate-free hand the source's removal filter
`[x for x in hand if x != played]` removes exactly the played card. -/
theorem filter_ne_erase (l : List Card) (a : Card) (h : l.Nodup) :
    l.filter (· ≠ a) = l.erase a := by
  rw [h.erase_eq_filter]
  apply List.filter_congr
  intro x _
  simp [bne, Bool.beq_eq_decide_eq]

/-- C8: on trick resolution with two distinct played cards, replenishment
follows exactly the claimed rule: with two or more stock cards the winner
draws the top (last) card first and the loser the next one; with exactly
one stock card the winner draws it and the loser receives the set-aside
trump card, after which both hands are back at size 3 and the stock is
empty; with an empty stock no replenishment happens and no error is
raised (a successor state is still returned). -/
theorem c8_replenishment (self : Briscas) (bd : Board) (cA cB : Card) (w : String)
    (hne : cA ≠ cB)
    (hw : trickWinnerO cA cB bd.trumpCard bd.leadingPlayer = some w)
    (hwAB : w = "A" ∨ w = "B") :
    (self.resolveTrick bd cA cB).out.isSome
    ∧ (self.cards = [] →
        (if w = "A" then (self.resolveTrick bd cA cB).self.playerAHand
            else (self.resolveTrick bd cA cB).self.playerBHand)
            = (if w = "A" then self.playerAHand.filter (· ≠ cA)
                else self.playerBHand.filter (· ≠ cB))
          ∧ (if w = "A" then (self.resolveTrick bd cA cB).self.playerBHand
              else (self.resolveTrick bd cA cB).self.playerAHand)
            = (if w = "A" then self.playerBHand.filter (· ≠ cB)
                else self.playerAHand.filter (· ≠ cA))
          ∧ (self.resolveTrick bd cA cB).self.cards = [])
    ∧ (self.cards.length = 1 →
        (if w = "A" then (self.resolveTrick bd cA cB).self.playerAHand
            else (self.resolveTrick bd cA cB).self.playerBHand)
            = (if w = "A" then self.playerAHand.filter (· ≠ cA)
                else self.playerBHand.filter (· ≠ cB)) ++ self.cards
          ∧ (if w = "A" then (self.resolveTrick bd cA cB).self.playerBHand
              else (self.resolveTrick bd cA cB).self.playerAHand)
            = (if w = "A" then self.playerBHand.filter (· ≠ cB)
                else self.playerAHand.filter (· ≠ cA)) ++ [bd.trumpCard]
          ∧ (self.resolveTrick bd cA cB).self.cards = [])
    ∧ (2 ≤ self.cards.length →
        (if w = "A" then (self.resolveTrick bd cA cB).self.playerAHand
            else (self.resolveTrick bd cA cB).self.playerBHand)
            = (if w = "A" then self.playerAHand.filter (· ≠ cA)
                else self.playerBHand.filter (· ≠ cB)) ++ [self.cards.getLastD bd.trumpCard]
          ∧ (if w = "A" then (self.resolveTrick bd cA cB).self.playerBHand
              else (self.resolveTrick bd cA cB).self.playerAHand)
            = (if w = "A" then self.playerBHand.filter (· ≠ cB)
                else self.playerAHand.filter (· ≠ cA))
                ++ [self.cards.dropLast.getLastD bd.trumpCard]
          ∧ (self.resolveTrick bd cA cB).self.cards = self.cards.dropLast.dropLast)
    ∧ (self.cards.length = 1 → self.playerAHand.Nodup → self.playerBHand.Nodup →
        cA ∈ self.playerAHand → cB ∈ self.playerBHand →
        self.playerAHand.length = 3 → self.playerBHand.length = 3 →
        (self.resolveTrick bd cA cB).self.playerAHand.length = 3
          ∧ (self.resolveTrick bd cA cB).self.playerBHand.length = 3) := by
  have hshape := resolveTrick_winner_shape self bd cA cB hne
  have hfA : ∀ (hn : self.playerAHand.Nodup), cA ∈ self.playerAHand →
      self.playerAHand.length = 3 → (self.playerAHand.filter (· ≠ cA)).length = 2 := by
    intro hn hm h3
    rw [filter_ne_erase _ _ hn, List.length_erase_of_mem hm, h3]
  have hfB : ∀ (hn : self.playerBHand.Nodup), cB ∈ self.playerBHand →
      self.playerBHand.length = 3 → (self.playerBHand.filter (· ≠ cB)).length = 2 := by
    intro hn hm h3
    rw [filter_ne_erase _ _ hn, List.length_erase_of_mem hm, h3]
  rcases hwAB with hA | hB
  · subst hA
    obtain ⟨e1, e2, e3, e4⟩ := hshape.1 hw
    refine ⟨e4, ?_, ?_, ?_, ?_⟩
    · intro h0
      rw [e1, e2, e3, h0, replenish_nil]
      simp
    · intro h1
      rw [e1, e2, e3, replenish_one _ _ _ _ h1]
      simp
    · intro h2
      rw [e1, e2, e3, replenish_big _ _ _ _ h2]
      simp
    · intro h1 hnA hnB hmA hmB h3A h3B
      rw [e1, e2, replenish_one _ _ _ _ h1]
      constructor
      · rw [List.length_append, hfA hnA hmA h3A, h1]
      · rw [List.length_append, hfB hnB hmB h3B, List.length_singleton]
  · subst hB
    obtain ⟨e1, e2, e3, e4⟩ := hshape.2 hw
    refine ⟨e4, ?_, ?_, ?_, ?_⟩
    · intro h0
      rw [e1, e2, e3, h0, replenish_nil]
      simp
    · intro h1
      rw [e1, e2, e3, replenish_one _ _ _ _ h1]
      simp
    · intro h2
      rw [e1, e2, e3, replenish_big _ _ _ _ h2]
      simp
    · intro h1 hnA hnB hmA hmB h3A h3B
      rw [e1, e2, replenish_one _ _ _ _ h1]
      constructor
      · rw [List.length_append, hfA hnA hmA h3A, List.length_singleton]
      · rw [List.length_append, hfB hnB hmB h3B, h1]

/-- C8 witness: the stock-exhaustion swap at the concrete one-card-stock
trick — the winner draws the last stock card, the loser receives the
trump card, both hands end at size 3 and the stock is empty. -/
theorem c8_witness :
    (c8Self.resolveTrick c8Board ⟨3, "cups", 10⟩ ⟨2, "cups", 0⟩).self.playerAHand.length = 3
    ∧ (c8Self.resolveTrick c8Board ⟨3, "cups", 10⟩ ⟨2, "cups", 0⟩).self.playerBHand.length = 3
    ∧ (c8Self.resolveTrick c8Board ⟨3, "cups", 10⟩ ⟨2, "cups", 0⟩).self.playerBHand
        = (c8Self.playerBHand.filter (· ≠ ⟨2, "cups", 0⟩)) ++ [c8Board.trumpCard]
    ∧ (c8Self.resolveTrick c8Board ⟨3, "cups", 10⟩ ⟨2, "cups", 0⟩).self.cards = []
    ∧ (c8Self.resolveTrick c8Board ⟨3, "cups", 10⟩ ⟨2, "cups", 0⟩).out.isSome := by
  have h := c8_replenishment c8Self c8Board ⟨3, "cups", 10⟩ ⟨2, "cups", 0⟩ "A"
    (by decide) (by decide) (Or.inl rfl)
  have hsz := h.2.2.2.2 rfl (by decide) (by decide) (by decide) (by decide) rfl rfl
  have hone := h.2.2.1 rfl
  refine ⟨hsz.1, hsz.2, ?_, ?_, h.1⟩
  · simpa using hone.2.1
  · exact hone.2.2

theorem dropLast_append_getLastD (l : List Card) (d : Card) (h : l ≠ []) :
    l.dropLast ++ [l.getLastD d] = l := by
  induction l with
  | nil => exact absurd rfl h
  | cons a t ih =>
    cases t with
    | nil => rfl
    | cons b u =>
      have := ih (by simp)
      simpa [List.dropLast] using this

/-- Replenishment only moves cards between the stock and the hands — and
pulls in the trump card exactly in the one-card-stock case. -/
theorem replenish_pool (w l stk : List Card) (t : Card) :
    (stk.length ≠ 1 →
      ((replenish w l stk t).w + ((replenish w l stk t).l : Multiset Card)
          + ((replenish w l stk t).stk : Multiset Card)
        = (w : Multiset Card) + (l : Multiset Card) + (stk : Multiset Card)))
    ∧ (stk.length = 1 →
      ((replenish w l stk t).w + ((replenish w l stk t).l : Multiset Card)
          + ((replenish w l stk t).stk : Multiset Card)
        = (w : Multiset Card) + (l : Multiset Card) + (stk : Multiset Card) + {t})) := by
  constructor
  · intro h1
    rcases Nat.eq_zero_or_pos stk.length with h0 | hpos
    · rw [List.length_eq_zero] at h0
      subst h0
      rw [replenish_nil]
    · have h2 : 2 ≤ stk.length := by omega
      rw [replenish_big _ _ _ _ h2]
      have hne : stk ≠ [] := by
        intro hc
        subst hc
        simp at hpos
      have hne2 : stk.dropLast ≠ [] := by
        intro hc
        have := congrArg List.length hc
        simp [List.length_dropLast] at this
        omega
      have e1 : stk.dropLast.dropLast ++ [stk.dropLast.getLastD t] = stk.dropLast :=
        dropLast_append_getLastD _ _ hne2
      have e2 : stk.dropLast ++ [stk.getLastD t] = stk :=
        dropLast_append_getLastD _ _ hne
      conv_rhs => rw [← e2, ← e1]
      simp only [Repl.w, Repl.l, Repl.stk, ← Multiset.coe_add]
      abel
  · intro h1
    rw [replenish_one _ _ _ _ h1]
    simp only [Repl.w, Repl.l, Repl.stk, ← Multiset.coe_add, ← Multiset.coe_singleton,
      Multiset.coe_nil]
    abel

theorem sumValues_append (P : List Card) (cA cB : Card) :
    sumValues (P ++ [cA, cB]) = sumValues P + (cA.value + cB.value) := by
  simp [sumValues]

theorem mval_add (s u : Multiset Card) : mval (s + u) = mval s + mval u := by
  simp [mval]

theorem mval_coe (l : List Card) : mval (l : Multiset Card) = sumValues l := by
  simp [mval, sumValues]

theorem mval_deck : mval deckM = 120 := by
  decide

theorem deck_nodup : deckM.Nodup := by
  decide

/-- With a recorded leader the winner cascade cannot fall through. -/
theorem trickWinnerO_ne_none (cA cB t : Card) (ld : Option String)
    (hld : ld = some "A" ∨ ld = some "B") :
    trickWinnerO cA cB t ld = some "A" ∨ trickWinnerO cA cB t ld = some "B" := by
  unfold trickWinnerO
  rcases hld with h | h <;> subst h <;> split_ifs <;> simp_all

/-- For distinct played cards, `resolveTrick` is one of: the A-winner
tail, the B-winner tail, or the fall-through, each applied to the
filtered hands and the appended played log. -/
theorem resolveTrick_branches (self : Briscas) (bd : Board) (cA cB : Card) (hne : cA ≠ cB) :
    (trickWinnerO cA cB bd.trumpCard bd.leadingPlayer = some "A" →
      self.resolveTrick bd cA cB
        = Briscas.winnerA
            ⟨self.cards, self.playerAHand.filter (· ≠ cA), self.playerBHand.filter (· ≠ cB),
              self.playerAPoints, self.playerBPoints, self.trump⟩
            { bd with
              cardsNotPlayed := bd.cardsNotPlayed.filter (· ≠ cB)
              cardsPlayed := bd.cardsPlayed ++ [cA, cB]
              playerAPlayedCard := none
              playerBPlayedCard := none } cA cB)
    ∧ (trickWinnerO cA cB bd.trumpCard bd.leadingPlayer = some "B" →
      self.resolveTrick bd cA cB
        = Briscas.winnerB
            ⟨self.cards, self.playerAHand.filter (· ≠ cA), self.playerBHand.filter (· ≠ cB),
              self.playerAPoints, self.playerBPoints, self.trump⟩
            { bd with
              cardsNotPlayed := bd.cardsNotPlayed.filter (· ≠ cB)
              cardsPlayed := bd.cardsPlayed ++ [cA, cB]
              playerAPlayedCard := none
              playerBPlayedCard := none } cA cB)
    ∧ (trickWinnerO cA cB bd.trumpCard bd.leadingPlayer = none →
      (self.resolveTrick bd cA cB).out = none) := by
  have hcc : ¬(cA.suit = cB.suit ∧ ¬cA.value > cB.value ∧ ¬cB.value > cA.value
      ∧ ¬cA.rank > cB.rank ∧ ¬cB.rank > cA.rank) := by
    rintro ⟨hs, h1, h2, h3, h4⟩
    apply hne
    cases cA
    cases cB
    simp_all
    omega
  unfold Briscas.resolveTrick trickWinnerO
  split_ifs <;> refine ⟨fun hw => ?_, fun hw => ?_, fun hw => ?_⟩ <;> first | rfl | simp_all

theorem pool_stepA1 (x y z a b c P T D : Multiset Card) (he : x + y + z = a + b + c)
    (hp : a + b + c + P + T = D) : x + y + z + P + T = D := by
  rw [he, hp]

theorem pool_stepA2 (x y z a b c P T D : Multiset Card) (he : x + y + z = a + b + c + T)
    (hp : a + b + c + P + T = D) : x + y + z + P = D := by
  rw [he, ← hp]
  abel

theorem pool_stepA3 (x y z a b c P D : Multiset Card) (he : x + y + z = a + b + c)
    (hp : a + b + c + P = D) : x + y + z + P = D := by
  rw [he, hp]

theorem pool_stepB1 (x y z a b c P T D : Multiset Card) (he : x + y + z = b + a + c)
    (hp : a + b + c + P + T = D) : y + x + z + P + T = D := by
  have h2 : y + x + z + P + T = x + y + z + P + T := by abel
  rw [h2, he, ← hp]
  abel

theorem pool_stepB2 (x y z a b c P T D : Multiset Card) (he : x + y + z = b + a + c + T)
    (hp : a + b + c + P + T = D) : y + x + z + P = D := by
  have h2 : y + x + z + P = x + y + z + P := by abel
  rw [h2, he, ← hp]
  abel

theorem pool_stepB3 (x y z a b c P D : Multiset Card) (he : x + y + z = b + a + c)
    (hp : a + b + c + P = D) : y + x + z + P = D := by
  have h2 : y + x + z + P = x + y + z + P := by abel
  rw [h2, he, ← hp]
  abel

/-- The A-winner tail preserves the game invariant, given the pool
relation on its (already filtered) inputs. -/
theorem winnerA_inv (self : Briscas) (bd : Board) (cA cB : Card)
    (hdisj : (poolL self bd.cardsPlayed + {bd.trumpCard} = deckM ∧ Odd self.cards.length)
      ∨ (poolL self bd.cardsPlayed = deckM ∧ self.cards = []))
    (ht : bd.trumpCard ∈ deckM)
    (hscore : self.playerAPoints + self.playerBPoints + (cA.value + cB.value)
      = sumValues bd.cardsPlayed)
    (hPA : bd.playerAPlayedCard = none) (hPB : bd.playerBPlayedCard = none) :
    ∃ st2, (self.winnerA bd cA cB).out = some st2
      ∧ GameInv (self.winnerA bd cA cB).self st2 := by
  have hrep := replenish_pool self.playerAHand self.playerBHand self.cards bd.trumpCard
  refine ⟨_, rfl, ?_, ht, ?_, ?_, ?_⟩
  · show (poolL _ bd.cardsPlayed + {bd.trumpCard} = deckM ∧ Odd _)
      ∨ (poolL _ bd.cardsPlayed = deckM ∧ _ = [])
    rcases hdisj with ⟨hpool, hodd⟩ | ⟨hpool, hnil⟩
    · by_cases h1 : self.cards.length = 1
      · right
        constructor
        · have e := hrep.2 h1
          unfold poolL at hpool ⊢
          simp only [Briscas.winnerA]
          exact pool_stepA2 _ _ _ _ _ _ _ _ _ e hpool
        · simp only [Briscas.winnerA]
          rw [replenish_one _ _ _ _ h1]
      · left
        constructor
        · have e := hrep.1 h1
          unfold poolL at hpool ⊢
          simp only [Briscas.winnerA]
          exact pool_stepA1 _ _ _ _ _ _ _ _ _ e hpool
        · have h2 : 2 ≤ self.cards.length := by
            rcases Nat.eq_zero_or_pos self.cards.length with h0 | hp
            · rw [Nat.odd_iff] at hodd
              omega
            · omega
          simp only [Briscas.winnerA]
          rw [replenish_big _ _ _ _ h2]
          simp only [Repl.stk, List.length_dropLast]
          rw [Nat.odd_iff] at hodd ⊢
          omega
    · right
      constructor
      · have e := hrep.1 (by rw [hnil]; decide)
        unfold poolL at hpool ⊢
        simp only [Briscas.winnerA]
        exact pool_stepA3 _ _ _ _ _ _ _ _ e hpool
      · simp only [Briscas.winnerA]
        rw [hnil, replenish_nil]
  · show (self.winnerA bd cA cB).self.playerAPoints
        + (self.winnerA bd cA cB).self.playerBPoints = sumValues bd.cardsPlayed
    simp only [Briscas.winnerA]
    omega
  · show (self.winnerA bd cA cB).self.playerAHand
        = if ("A" : String) = "A" then _ else _
    simp
  · exact Or.inl ⟨hPA, hPB, Or.inl rfl⟩

/-- The B-winner tail preserves the game invariant. -/
theorem winnerB_inv (self : Briscas) (bd : Board) (cA cB : Card)
    (hdisj : (poolL self bd.cardsPlayed + {bd.trumpCard} = deckM ∧ Odd self.cards.length)
      ∨ (poolL self bd.cardsPlayed = deckM ∧ self.cards = []))
    (ht : bd.trumpCard ∈ deckM)
    (hscore : self.playerAPoints + self.playerBPoints + (cA.value + cB.value)
      = sumValues bd.cardsPlayed)
    (hPA : bd.playerAPlayedCard = none) (hPB : bd.playerBPlayedCard = none) :
    ∃ st2, (self.winnerB bd cA cB).out = some st2
      ∧ GameInv (self.winnerB bd cA cB).self st2 := by
  have hrep := replenish_pool self.playerBHand self.playerAHand self.cards bd.trumpCard
  refine ⟨_, rfl, ?_, ht, ?_, ?_, ?_⟩
  · show (poolL _ bd.cardsPlayed + {bd.trumpCard} = deckM ∧ Odd _)
      ∨ (poolL _ bd.cardsPlayed = deckM ∧ _ = [])
    rcases hdisj with ⟨hpool, hodd⟩ | ⟨hpool, hnil⟩
    · by_cases h1 : self.cards.length = 1
      · right
        constructor
        · have e := hrep.2 h1
          unfold poolL at hpool ⊢
          simp only [Briscas.winnerB]
          exact pool_stepB2 _ _ _ _ _ _ _ _ _ e hpool
        · simp only [Briscas.winnerB]
          rw [replenish_one _ _ _ _ h1]
      · left
        constructor
        · have e := hrep.1 h1
          unfold poolL at hpool ⊢
          simp only [Briscas.winnerB]
          exact pool_stepB1 _ _ _ _ _ _ _ _ _ e hpool
        · have h2 : 2 ≤ self.cards.length := by
            rcases Nat.eq_zero_or_pos self.cards.length with h0 | hp
            · rw [Nat.odd_iff] at hodd
              omega
            · omega
          simp only [Briscas.winnerB]
          rw [replenish_big _ _ _ _ h2]
          simp only [Repl.stk, List.length_dropLast]
          rw [Nat.odd_iff] at hodd ⊢
          omega
    · right
      constructor
      · have e := hrep.1 (by rw [hnil]; decide)
        unfold poolL at hpool ⊢
        simp only [Briscas.winnerB]
        exact pool_stepB3 _ _ _ _ _ _ _ _ e hpool
      · simp only [Briscas.winnerB]
        rw [hnil, replenish_nil]
  · show (self.winnerB bd cA cB).self.playerAPoints
        + (self.winnerB bd cA cB).self.playerBPoints = sumValues bd.cardsPlayed
    simp only [Briscas.winnerB]
    omega
  · show (self.winnerB bd cA cB).self.playerBHand
        = if ("B" : String) = "A" then _ else _
    simp
  · exact Or.inl ⟨hPA, hPB, Or.inr rfl⟩

theorem pool_filter_eq (fA fB hA hB stk P : List Card) (cA cB : Card)
    (eA : (fA : Multiset Card) + {cA} = (hA : Multiset Card))
    (eB : (fB : Multiset Card) + {cB} = (hB : Multiset Card)) :
    (fA : Multiset Card) + (fB : Multiset Card) + (stk : Multiset Card)
        + ((P ++ [cA, cB] : List Card) : Multiset Card)
      = (hA : Multiset Card) + (hB : Multiset Card) + (stk : Multiset Card)
        + (P : Multiset Card) := by
  rw [← eA, ← eB]
  simp only [← Multiset.coe_add]
  have h2 : (([cA, cB] : List Card) : Multiset Card) = {cA} + {cB} := rfl
  rw [h2]
  abel

/-- Removing one occurrence from a duplicate-free hand, as a multiset
equation. -/
theorem filter_pool_eq (l : List Card) (a : Card) (hn : l.Nodup) (hm : a ∈ l) :
    ((l.filter (· ≠ a) : List Card) : Multiset Card) + {a} = (l : Multiset Card) := by
  rw [filter_ne_erase _ _ hn]
  have hp : l.Perm (a :: l.erase a) := List.perm_cons_erase hm
  have := Multiset.coe_eq_coe.mpr hp
  rw [this]
  have h3 : ((a :: l.erase a : List Card) : Multiset Card) = {a} + ↑(l.erase a) := rfl
  rw [h3]
  abel

/-- Trick resolution preserves the game invariant: the completion branch
of `result` always returns a successor state satisfying `GameInv`. -/
theorem resolveTrick_inv (b : Briscas) (bd : Board) (cA cB : Card)
    (hdisj : (poolL b bd.cardsPlayed + {bd.trumpCard} = deckM ∧ Odd b.cards.length)
      ∨ (poolL b bd.cardsPlayed = deckM ∧ b.cards = []))
    (ht : bd.trumpCard ∈ deckM)
    (hscore : b.playerAPoints + b.playerBPoints = sumValues bd.cardsPlayed)
    (hcA : cA ∈ b.playerAHand) (hcB : cB ∈ b.playerBHand)
    (hld : bd.leadingPlayer = some "A" ∨ bd.leadingPlayer = some "B") :
    ∃ st2, (b.resolveTrick bd cA cB).out = some st2
      ∧ GameInv (b.resolveTrick bd cA cB).self st2 := by
  have hpn : (poolL b bd.cardsPlayed).Nodup := by
    rcases hdisj with ⟨hpool, -⟩ | ⟨hpool, -⟩
    · exact Multiset.nodup_of_le (Multiset.le_add_right _ _) (hpool ▸ deck_nodup)
    · exact hpool ▸ deck_nodup
  have hAB : (Multiset.ofList b.playerAHand + ↑b.playerBHand).Nodup := by
    unfold poolL at hpn
    exact ((Multiset.nodup_add.mp ((Multiset.nodup_add.mp hpn).1)).1)
  obtain ⟨hnA1, hnB1, hdAB⟩ := Multiset.nodup_add.mp hAB
  have hnA : b.playerAHand.Nodup := by
    rw [← Multiset.coe_nodup]
    exact hnA1
  have hnB : b.playerBHand.Nodup := by
    rw [← Multiset.coe_nodup]
    exact hnB1
  have hne : cA ≠ cB := by
    intro hcon
    exact Multiset.disjoint_left.mp hdAB (by simpa using hcA) (by simpa [← hcon] using hcB)
  have eA := filter_pool_eq b.playerAHand cA hnA hcA
  have eB := filter_pool_eq b.playerBHand cB hnB hcB
  have hpe := pool_filter_eq (b.playerAHand.filter (· ≠ cA)) (b.playerBHand.filter (· ≠ cB))
    b.playerAHand b.playerBHand b.cards bd.cardsPlayed cA cB eA eB
  have hbr := resolveTrick_branches b bd cA cB hne
  have hw := trickWinnerO_ne_none cA cB bd.trumpCard bd.leadingPlayer hld
  have hdisj2 : (poolL
        ⟨b.cards, b.playerAHand.filter (· ≠ cA), b.playerBHand.filter (· ≠ cB),
          b.playerAPoints, b.playerBPoints, b.trump⟩ (bd.cardsPlayed ++ [cA, cB])
        + {bd.trumpCard} = deckM ∧ Odd b.cards.length)
      ∨ (poolL
        ⟨b.cards, b.playerAHand.filter (· ≠ cA), b.playerBHand.filter (· ≠ cB),
          b.playerAPoints, b.playerBPoints, b.trump⟩ (bd.cardsPlayed ++ [cA, cB]) = deckM
        ∧ b.cards = []) := by
    unfold poolL at hdisj ⊢
    rcases hdisj with ⟨hpool, hodd⟩ | ⟨hpool, hnil⟩
    · exact Or.inl ⟨by rw [hpe]; exact hpool, hodd⟩
    · exact Or.inr ⟨by rw [hpe]; exact hpool, hnil⟩
  have hscore2 : b.playerAPoints + b.playerBPoints + (cA.value + cB.value)
      = sumValues (bd.cardsPlayed ++ [cA, cB]) := by
    rw [sumValues_append]
    omega
  rcases hw with hwa | hwb
  · rw [hbr.1 hwa]
    exact winnerA_inv _ _ cA cB hdisj2 ht hscore2 rfl rfl
  · rw [hbr.2.1 hwb]
    exact winnerB_inv _ _ cA cB hdisj2 ht hscore2 rfl rfl

/-- The initial deal satisfies the game invariant. -/
theorem inv_init (hA hB stk : List Card) (t : Card)
    (hperm : (hA ++ hB ++ stk ++ [t]).Perm standardDeck)
    (hA3 : hA.length = 3) (hB3 : hB.length = 3) :
    GameInv (initBriscas hA hB stk t) (initState hA hB stk t) := by
  have hlen := hperm.length_eq
  simp only [List.length_append, List.length_cons, List.length_nil, hA3, hB3] at hlen
  have hdk : standardDeck.length = 40 := rfl
  rw [hdk] at hlen
  have hstk : stk.length = 33 := by omega
  have hcoe := Multiset.coe_eq_coe.mpr hperm
  refine ⟨Or.inl ⟨?_, ?_⟩, ?_, rfl, by simp [initState, initBriscas], Or.inl ⟨rfl, rfl, Or.inl rfl⟩⟩
  · show (poolL (initBriscas hA hB stk t) [] + {t} : Multiset Card) = deckM
    unfold poolL deckM initBriscas
    rw [← hcoe]
    simp only [← Multiset.coe_add, ← Multiset.coe_singleton, Multiset.coe_nil]
    abel
  · show Odd stk.length
    rw [hstk]
    decide
  · show t ∈ deckM
    have : t ∈ standardDeck := hperm.mem_iff.mp (by simp)
    simpa [deckM] using this

/-- Master step lemma: from an invariant state, every legal move returns
exactly one successor, and the successor satisfies the invariant. -/
theorem inv_result (b : Briscas) (st : GameState) (m : Card) (hInv : GameInv b st)
    (hm : m ∈ b.actions st) :
    ∃ r st2, b.result st m = some r ∧ r.out = some st2 ∧ GameInv r.self st2 := by
  obtain ⟨hdisj, ht, hscore, hmoves, hphase⟩ := hInv
  unfold Briscas.actions at hm
  rcases hphase with ⟨hpa, hpb, hab⟩ | ⟨c, hpa, hpb, htm, hlp, hch⟩ | ⟨c, hpb, hpa, htm, hlp, hch⟩
  · rcases hab with hA | hB
    · have hmA : m ∈ b.playerAHand := by
        rw [hmoves, hA] at hm
        simpa using hm
      refine ⟨⟨b, some ⟨"B", b.playerAPoints,
          { st.board with leadingPlayer := some "A", playerAPlayedCard := some m },
          b.playerBHand⟩, st.board.cardsPlayed⟩, _, ?_, rfl, ?_⟩
      · simp [Briscas.result, hpb, hA]
      · exact ⟨hdisj, ht, hscore, by simp,
          Or.inr (Or.inl ⟨m, rfl, hpb, rfl, rfl, hmA⟩)⟩
    · have hmB : m ∈ b.playerBHand := by
        rw [hmoves, hB] at hm
        simpa using hm
      have hne : ¬(st.board.playerBPlayedCard = none ∧ st.to_move = "A") := by
        rintro ⟨-, hc⟩
        rw [hB] at hc
        exact absurd hc (by decide)
      refine ⟨⟨b, some ⟨"A", b.playerAPoints,
          { st.board with leadingPlayer := some "B", playerBPlayedCard := some m },
          b.playerAHand⟩, st.board.cardsPlayed⟩, _, ?_, rfl, ?_⟩
      · simp [Briscas.result, hpa, hB, hne]
      · exact ⟨hdisj, ht, hscore, by simp,
          Or.inr (Or.inr ⟨m, rfl, hpa, rfl, rfl, hmB⟩)⟩
  · -- player A has led card c; the move completes the trick
    have hmB : m ∈ b.playerBHand := by
      rw [hmoves, htm] at hm
      simpa using hm
    obtain ⟨bd1, hres, htr, hlp1, hcp, -, -, -⟩ :=
      result_completion b st m c m (Or.inl ⟨hpa, hpb, htm, rfl⟩)
    obtain ⟨st2, hout, hinv2⟩ := resolveTrick_inv b bd1 c m
      (by rw [hcp, htr]; exact hdisj) (by rw [htr]; exact ht) (by rw [hcp]; exact hscore)
      hch hmB (by rw [hlp1, hlp]; exact Or.inl rfl)
    exact ⟨_, st2, hres, hout, hinv2⟩
  · -- player B has led card c
    have hmA : m ∈ b.playerAHand := by
      rw [hmoves, htm] at hm
      simpa using hm
    obtain ⟨bd1, hres, htr, hlp1, hcp, -, -, -⟩ :=
      result_completion b st m m c (Or.inr ⟨hpb, hpa, htm, rfl⟩)
    obtain ⟨st2, hout, hinv2⟩ := resolveTrick_inv b bd1 m c
      (by rw [hcp, htr]; exact hdisj) (by rw [htr]; exact ht) (by rw [hcp]; exact hscore)
      hmA hch (by rw [hlp1, hlp]; exact Or.inr rfl)
    exact ⟨_, st2, hres, hout, hinv2⟩

/-- Every reachable pair satisfies the game invariant. -/
theorem reach_inv (b : Briscas) (st : GameState) (h : Reach b st) : GameInv b st := by
  induction h with
  | init hA hB stk t hperm hA3 hB3 => exact inv_init hA hB stk t hperm hA3 hB3
  | step b0 st0 m r st2 hre hm hres hout ih =>
    obtain ⟨r2, st3, hres2, hout2, hinv2⟩ := inv_result b0 st0 m ih hm
    rw [hres] at hres2
    obtain rfl : r = r2 := Option.some.inj hres2
    rw [hout] at hout2
    obtain rfl : st2 = st3 := Option.some.inj hout2
    exact hinv2

theorem reachTrace0 : Reach traceB0 traceSt0 :=
  Reach.init traceHA traceHB traceStock traceTrump (by decide) rfl rfl

theorem reachTrace1 : Reach traceB1 traceSt1 :=
  Reach.step traceB0 traceSt0 ⟨3, "swords", 10⟩ traceR1 traceSt1 reachTrace0
    (by decide) rfl rfl

theorem reachTrace2 : Reach traceB2 traceSt2 :=
  Reach.step traceB1 traceSt1 ⟨1, "swords", 11⟩ traceR2 traceSt2 reachTrace1
    (by decide) rfl rfl

/-- C7 counterexample: after the first completed trick of the concrete
reachable trace the two scores sum to 21 — the summed point value of the
two logged cards — while twice that summed value is 42, so the claimed
equation `scoreA + scoreB = 2 * Σ pointValue(trickLog)` fails on the
code. -/
theorem c7_cex :
    Reach traceB2 traceSt2
    ∧ traceB2.playerAPoints + traceB2.playerBPoints = 21
    ∧ 2 * sumValues traceSt2.board.cardsPlayed = 42
    ∧ traceB2.playerAPoints + traceB2.playerBPoints
        ≠ 2 * sumValues traceSt2.board.cardsPlayed :=
  ⟨reachTrace2, rfl, rfl, by decide⟩

/-- C7 (amended): for every reachable pair, the two hands, the stock, the
undrawn-trump flag and the played-cards log (two entries per completed
trick) partition the 40-card deck — the counting identity holds, no card
occurs twice across those places — and the scores sum to *once* the
summed point value of the cards in the log. -/
theorem c7_invariant (b : Briscas) (st : GameState) (h : Reach b st) :
    b.playerAHand.length + b.playerBHand.length + b.cards.length
        + (if st.board.trumpCard ∈ b.playerAHand ++ b.playerBHand ++ b.cards
              ++ st.board.cardsPlayed then 0 else 1)
        + st.board.cardsPlayed.length = 40
    ∧ (b.playerAHand ++ b.playerBHand ++ b.cards ++ st.board.cardsPlayed
        ++ (if st.board.trumpCard ∈ b.playerAHand ++ b.playerBHand ++ b.cards
              ++ st.board.cardsPlayed then ([] : List Card)
            else [st.board.trumpCard])).Nodup
    ∧ b.playerAPoints + b.playerBPoints = sumValues st.board.cardsPlayed := by
  obtain ⟨hdisj, ht, hscore, -, -⟩ := reach_inv b st h
  have hmem : (st.board.trumpCard ∈ b.playerAHand ++ b.playerBHand ++ b.cards
      ++ st.board.cardsPlayed) ↔ st.board.trumpCard ∈ poolL b st.board.cardsPlayed := by
    simp [poolL]
  have hcard : Multiset.card (poolL b st.board.cardsPlayed)
      = b.playerAHand.length + b.playerBHand.length + b.cards.length
        + st.board.cardsPlayed.length := by
    simp [poolL]
    omega
  have hdcard : Multiset.card deckM = 40 := rfl
  rcases hdisj with ⟨hpool, -⟩ | ⟨hpool, -⟩
  · have hnd : (poolL b st.board.cardsPlayed + {st.board.trumpCard}).Nodup :=
      hpool ▸ deck_nodup
    have hnotin : st.board.trumpCard ∉ poolL b st.board.cardsPlayed := by
      intro hc
      exact Multiset.disjoint_left.mp (Multiset.nodup_add.mp hnd).2.2 hc (by simp)
    have hifc : ¬(st.board.trumpCard ∈ b.playerAHand ++ b.playerBHand ++ b.cards
        ++ st.board.cardsPlayed) := fun hc => hnotin (hmem.mp hc)
    refine ⟨?_, ?_, hscore⟩
    · rw [if_neg hifc]
      have := congrArg Multiset.card hpool
      rw [hdcard] at this
      simp only [Multiset.card_add, Multiset.card_singleton, hcard] at this
      omega
    · rw [if_neg hifc, ← Multiset.coe_nodup]
      have hco : ((b.playerAHand ++ b.playerBHand ++ b.cards ++ st.board.cardsPlayed
          ++ [st.board.trumpCard] : List Card) : Multiset Card)
          = poolL b st.board.cardsPlayed + {st.board.trumpCard} := by
        simp only [poolL, ← Multiset.coe_add, ← Multiset.coe_singleton]
      rw [hco]
      exact hnd
  · have hin : st.board.trumpCard ∈ poolL b st.board.cardsPlayed := by
      rw [hpool]
      exact ht
    have hifc : st.board.trumpCard ∈ b.playerAHand ++ b.playerBHand ++ b.cards
        ++ st.board.cardsPlayed := hmem.mpr hin
    refine ⟨?_, ?_, hscore⟩
    · rw [if_pos hifc]
      have := congrArg Multiset.card hpool
      rw [hdcard, hcard] at this
      omega
    · rw [if_pos hifc, List.append_nil, ← Multiset.coe_nodup]
      have hco : ((b.playerAHand ++ b.playerBHand ++ b.cards ++ st.board.cardsPlayed
          : List Card) : Multiset Card) = poolL b st.board.cardsPlayed := by
        simp only [poolL, ← Multiset.coe_add]
      rw [hco, hpool]
      exact deck_nodup

/-- C7 witness: the amended invariant evaluated on the concrete reachable
state after one trick. -/
theorem c7_witness :
    traceB2.playerAHand.length + traceB2.playerBHand.length + traceB2.cards.length
        + (if traceSt2.board.trumpCard ∈ traceB2.playerAHand ++ traceB2.playerBHand
              ++ traceB2.cards ++ traceSt2.board.cardsPlayed then 0 else 1)
        + traceSt2.board.cardsPlayed.length = 40
    ∧ (traceB2.playerAHand ++ traceB2.playerBHand ++ traceB2.cards
        ++ traceSt2.board.cardsPlayed
        ++ (if traceSt2.board.trumpCard ∈ traceB2.playerAHand ++ traceB2.playerBHand
              ++ traceB2.cards ++ traceSt2.board.cardsPlayed then ([] : List Card)
            else [traceSt2.board.trumpCard])).Nodup
    ∧ traceB2.playerAPoints + traceB2.playerBPoints
        = sumValues traceSt2.board.cardsPlayed :=
  c7_invariant traceB2 traceSt2 reachTrace2

/-- C4 counterexample: on the concrete reachable state where player B has
won 21 points and player A none, `utility` for player B returns 0 —
player A's score — not B's own 21. -/
theorem c4_cex :
    Reach traceB2 traceSt2
    ∧ traceB2.utility traceSt2 "B" = 0
    ∧ traceB2.playerBPoints = 21
    ∧ traceB2.utility traceSt2 "B" ≠ traceB2.playerBPoints :=
  ⟨reachTrace2, rfl, rfl, by decide⟩

/-- C4 (amended): `utility` ignores both the state and the player
argument and always returns `playerAPoints` (player A's cumulative
score); on reachable states the scores are a fixed-sum quantity —
`scoreA + scoreB ≤ 120`, with equality whenever the terminal test
holds — so only at terminal states is B's score recoverable as
`120 - scoreA`. -/
theorem c4_utility_playerA :
    (∀ (b : Briscas) (st : GameState) (p : String), b.utility st p = b.playerAPoints)
    ∧ (∀ (b : Briscas) (st : GameState), Reach b st →
        b.playerAPoints + b.playerBPoints ≤ 120
        ∧ (b.terminal_test = true → b.playerAPoints + b.playerBPoints = 120)) := by
  constructor
  · intro b st p
    rfl
  · intro b st h
    obtain ⟨hdisj, ht, hscore, -, -⟩ := reach_inv b st h
    have hterm : b.terminal_test = true →
        b.playerAHand = [] ∧ b.playerBHand = [] ∧ b.cards = [] := by
      intro hT
      simp only [Briscas.terminal_test, Bool.and_eq_true, beq_iff_eq,
        List.length_eq_zero] at hT
      tauto
    have hdec : mval (poolL b st.board.cardsPlayed)
        = mval (b.playerAHand : Multiset Card) + mval (b.playerBHand : Multiset Card)
          + mval (b.cards : Multiset Card)
          + mval (st.board.cardsPlayed : Multiset Card) := by
      unfold poolL
      rw [mval_add, mval_add, mval_add]
    have hPm : mval (st.board.cardsPlayed : Multiset Card)
        = sumValues st.board.cardsPlayed := mval_coe _
    rcases hdisj with ⟨hpool, hodd⟩ | ⟨hpool, hnil⟩
    · have h120 := congrArg mval hpool
      rw [mval_add, mval_deck] at h120
      constructor
      · omega
      · intro hT
        obtain ⟨-, -, hc0⟩ := hterm hT
        rw [hc0] at hodd
        simp [Nat.odd_iff] at hodd
    · have h120 := congrArg mval hpool
      rw [mval_deck] at h120
      constructor
      · omega
      · intro hT
        obtain ⟨hA0, hB0, hc0⟩ := hterm hT
        rw [hA0, hB0, hc0] at hdec
        simp only [Multiset.coe_nil] at hdec
        have hz : mval 0 = 0 := rfl
        rw [hz] at hdec
        omega

/-- C4 witness: the amended utility contract at the concrete reachable
state. -/
theorem c4_witness :
    traceB2.utility traceSt2 "B" = traceB2.playerAPoints
    ∧ traceB2.playerAPoints + traceB2.playerBPoints ≤ 120 :=
  ⟨c4_utility_playerA.1 traceB2 traceSt2 "B",
   (c4_utility_playerA.2 traceB2 traceSt2 reachTrace2).1⟩

/-- C5 counterexample: at a reachable state where the mover (player A)
has drawn the 11 of clubs into its hand, one admissible determinization
sample (`randint` draws 31, 0, 0) deals that same card into the synthetic
opponent hand — `cardsNotPlayed` still contains it, because drawn cards
are never removed — so the sample is NOT dealt from the cards the mover
has not seen (the synthetic mover hand is even the stale initial hand,
still holding the already-played 3 of swords). -/
theorem c5_cex :
    Reach traceB2 traceSt2
    ∧ ∃ sim : Briscas,
        Briscas.setSimulationCards ⟨[], [], [], 0, 0, none⟩ [31, 0, 0] traceSt2 = some sim
        ∧ (⟨11, "clubs", 3⟩ : Card) ∈ sim.playerBHand
        ∧ (⟨11, "clubs", 3⟩ : Card) ∈ traceB2.playerAHand
        ∧ (⟨3, "swords", 10⟩ : Card) ∈ sim.playerAHand
        ∧ (⟨3, "swords", 10⟩ : Card) ∈ traceSt2.board.cardsPlayed :=
  ⟨reachTrace2, _, rfl, by decide, by decide, by decide, by decide⟩

/-- The inline best-action tracking of one sample's root loop equals
collecting the recorded values and folding the first-seen-max step. -/
theorem actionLoop_record (game : Briscas) (st : GameState) (acts : List Card)
    (d : Nat) :
    ∀ (sim : Briscas) (bA : Option Card) (bS : EInt),
      actionLoop game sim st acts bA bS d
        = (actionRecord game sim st acts bS d).map
            (fun x => x.1.foldl pickStep (bA, bS)) := by
  induction acts with
  | nil =>
    intro sim bA bS
    rfl
  | cons a rest ih =>
    intro sim bA bS
    simp only [actionLoop, actionRecord]
    cases hres : sim.result st a with
    | none => simp
    | some r =>
      simp only []
      cases hmin : minValue game r.self r.out bS ⊤ (d + 1) with
      | none => simp
      | some p =>
        obtain ⟨v, sim2⟩ := p
        simp only []
        by_cases hv : bS < v
        · simp only [if_pos hv, ih sim2 (some a) v]
          cases hrec : actionRecord game sim2 st rest v d with
          | none => simp
          | some x =>
            obtain ⟨recs, bS3, sim3⟩ := x
            simp [List.foldl_cons, pickStep, hv]
        · simp only [if_neg hv, ih sim2 bA bS]
          cases hrec : actionRecord game sim2 st rest bS d with
          | none => simp
          | some x =>
            obtain ⟨recs, bS3, sim3⟩ := x
            simp [List.foldl_cons, pickStep, hv]

/-- The best score threaded by the recorder is the score component of the
first-seen-max fold. -/
theorem actionRecord_snd (game : Briscas) (st : GameState) (acts : List Card)
    (d : Nat) :
    ∀ (sim : Briscas) (bS : EInt) (x : List (Card × EInt) × EInt × Briscas),
      actionRecord game sim st acts bS d = some x →
      ∀ bA : Option Card, x.2.1 = (x.1.foldl pickStep (bA, bS)).2 := by
  induction acts with
  | nil =>
    intro sim bS x hx bA
    simp only [actionRecord, Option.some.injEq] at hx
    rw [← hx]
    rfl
  | cons a rest ih =>
    intro sim bS x hx bA
    simp only [actionRecord] at hx
    cases hres : sim.result st a with
    | none =>
      rw [hres] at hx
      exact absurd hx (by simp)
    | some r =>
      rw [hres] at hx
      simp only [] at hx
      cases hmin : minValue game r.self r.out bS ⊤ (d + 1) with
      | none =>
        rw [hmin] at hx
        exact absurd hx (by simp)
      | some p =>
        rw [hmin] at hx
        obtain ⟨v, sim2⟩ := p
        simp only [] at hx
        cases hrec : actionRecord game sim2 st rest (if bS < v then v else bS) d with
        | none =>
          rw [hrec] at hx
          exact absurd hx (by simp)
        | some y =>
          rw [hrec] at hx
          obtain ⟨recs, bS3, sim3⟩ := y
          simp only [Option.some.injEq] at hx
          subst hx
          have hstep : pickStep (bA, bS) (a, v)
              = (if bS < v then some a else bA, if bS < v then v else bS) := by
            by_cases hv : bS < v <;> simp [pickStep, hv]
          simp only [List.foldl_cons, hstep]
          exact ih sim2 (if bS < v then v else bS) (recs, bS3, sim3) hrec
            (if bS < v then some a else bA)

/-- The determinization loop equals collecting all recorded values across
the samples and folding the first-seen-max step once at the end. -/
theorem searchSamples_record (game : Briscas) (state : GameState) (picks : Nat → List Nat)
    (d : Nat) (idxs : List Nat) :
    ∀ (bA : Option Card) (bS : EInt),
      searchSamples game state picks d idxs bA bS
        = (sampleRecord game state picks d idxs bS).map
            (fun recs => recs.foldl pickStep (bA, bS)) := by
  induction idxs with
  | nil =>
    intro bA bS
    rfl
  | cons i rest ih =>
    intro bA bS
    simp only [searchSamples, sampleRecord]
    cases hsim : Briscas.setSimulationCards ⟨[], [], [], 0, 0, none⟩ (picks i) state with
    | none => simp
    | some sim =>
      simp only []
      rw [actionLoop_record game state (sim.actions state) d sim bA bS]
      cases hrec : actionRecord game sim state (sim.actions state) bS d with
      | none => simp
      | some x =>
        obtain ⟨recs, bS2, sim3⟩ := x
        have hsnd := actionRecord_snd game state (sim.actions state) d sim bS
          (recs, bS2, sim3) hrec bA
        simp only [Option.map_some']
        rw [ih (recs.foldl pickStep (bA, bS)).1 (recs.foldl pickStep (bA, bS)).2]
        have hbs2 : bS2 = (recs.foldl pickStep (bA, bS)).2 := hsnd
        rw [← hbs2]
        cases hrest : sampleRecord game state picks d rest bS2 with
        | none => simp
        | some recs2 =>
          simp only [Option.map_some', List.foldl_append]
          rw [hbs2]

/-- Folding the first-seen-max step either keeps the accumulator (all
recorded values at most its score) or lands on the first record of the
single highest value: everything before it is strictly smaller, and
everything after it is no larger. -/
theorem pickAux (recs : List (Card × EInt)) :
    ∀ acc : Option Card × EInt,
      (recs.foldl pickStep acc = acc ∧ ∀ p ∈ recs, p.2 ≤ acc.2)
      ∨ (∃ a v l1 l2, recs = l1 ++ (a, v) :: l2 ∧ recs.foldl pickStep acc = (some a, v)
          ∧ acc.2 < v ∧ (∀ p ∈ l1, p.2 < v) ∧ (∀ p ∈ l2, p.2 ≤ v)) := by
  induction recs with
  | nil =>
    intro acc
    exact Or.inl ⟨rfl, by simp⟩
  | cons x rest ih =>
    intro acc
    by_cases hx : acc.2 < x.2
    · have hstep : pickStep acc x = (some x.1, x.2) := by
        simp [pickStep, hx]
      rcases ih (some x.1, x.2) with ⟨heq, hall⟩ | ⟨a, v, l1, l2, hsplit, heq, hlt, h1, h2⟩
      · right
        refine ⟨x.1, x.2, [], rest, by simp, ?_, hx, by simp, ?_⟩
        · rw [List.foldl_cons, hstep, heq]
        · intro p hp
          exact hall p hp
      · right
        refine ⟨a, v, x :: l1, l2, by rw [hsplit]; simp, ?_, ?_, ?_, h2⟩
        · rw [List.foldl_cons, hstep, heq]
        · exact lt_trans hx hlt
        · intro p hp
          rcases List.mem_cons.mp hp with rfl | hp2
          · exact hlt
          · exact h1 p hp2
    · have hstep : pickStep acc x = acc := by
        simp [pickStep, hx]
      rcases ih acc with ⟨heq, hall⟩ | ⟨a, v, l1, l2, hsplit, heq, hlt, h1, h2⟩
      · left
        constructor
        · rw [List.foldl_cons, hstep, heq]
        · intro p hp
          rcases List.mem_cons.mp hp with rfl | hp2
          · exact le_of_not_lt hx
          · exact hall p hp2
      · right
        refine ⟨a, v, x :: l1, l2, by rw [hsplit]; simp, ?_, hlt, ?_, h2⟩
        · rw [List.foldl_cons, hstep, heq]
        · intro p hp
          rcases List.mem_cons.mp hp with rfl | hp2
          · exact lt_of_le_of_lt (le_of_not_lt hx) hlt
          · exact h1 p hp2

/-- C5 (amended): the determinization driver performs exactly 100 samples
(the `List.range 100` on the right-hand side) — each dealing a synthetic
opponent hand from the state's `cardsNotPlayed` pool, which can contain
cards the mover has already drawn — and returns the action of the single
highest value recorded across all samples, not an average: the inline
tracking equals a fold of the first-seen-max step over the full recorded
list, whose result is the first record achieving the maximum value, ties
broken in favour of the first-seen record. -/
theorem c5_selection_rule :
    (∀ (game : Briscas) (state : GameState) (picks : Nat → List Nat) (d : Nat),
      alphabeta_full_search game state picks d
        = (sampleRecord game state picks d (List.range 100) ⊥).map
            (fun recs => (pickFirstMax recs).1))
    ∧ (∀ (recs : List (Card × EInt)) (p : Card × EInt), p ∈ recs →
        p.2 ≤ (pickFirstMax recs).2)
    ∧ (∀ (recs : List (Card × EInt)) (a : Card) (v : EInt),
        pickFirstMax recs = (some a, v) →
        ∃ l1 l2, recs = l1 ++ (a, v) :: l2
          ∧ (∀ p ∈ l1, p.2 < v) ∧ (∀ p ∈ l2, p.2 ≤ v)) := by
  refine ⟨?_, ?_, ?_⟩
  · intro game state picks d
    unfold alphabeta_full_search
    rw [searchSamples_record game state picks d (List.range 100) none ⊥]
    cases sampleRecord game state picks d (List.range 100) (⊥ : EInt) with
    | none => rfl
    | some recs => rfl
  · intro recs p hp
    rcases pickAux recs (none, ⊥) with ⟨heq, hall⟩ | ⟨a, v, l1, l2, hsplit, heq, -, h1, h2⟩
    · unfold pickFirstMax
      rw [heq]
      exact hall p hp
    · unfold pickFirstMax
      rw [heq]
      rw [hsplit] at hp
      rcases List.mem_append.mp hp with hp1 | hp1
      · exact le_of_lt (h1 p hp1)
      · rcases List.mem_cons.mp hp1 with rfl | hp2
        · exact le_refl _
        · exact h2 p hp2
  · intro recs a v hfix
    rcases pickAux recs (none, ⊥) with ⟨heq, -⟩ | ⟨a2, v2, l1, l2, hsplit, heq, -, h1, h2⟩
    · unfold pickFirstMax at hfix
      rw [heq] at hfix
      exact absurd (congrArg Prod.fst hfix) (by simp)
    · unfold pickFirstMax at hfix
      rw [heq] at hfix
      have ha : a2 = a := by
        have := congrArg Prod.fst hfix
        simpa using this
      have hv : v2 = v := congrArg Prod.snd hfix
      subst ha
      subst hv
      exact ⟨l1, l2, hsplit, h1, h2⟩

/-- C5 witness: the 100-sample recording equivalence instantiated on the
concrete trace state, and the first-seen-max characterization discharged
on a concrete singleton record. -/
theorem c5_witness :
    (alphabeta_full_search traceB2 traceSt2 (fun _ => [0, 0, 0]) 10
      = (sampleRecord traceB2 traceSt2 (fun _ => [0, 0, 0]) 10 (List.range 100) ⊥).map
          (fun recs => (pickFirstMax recs).1))
    ∧ ∃ l1 l2, [((⟨1, "swords", 11⟩ : Card), toEInt 5)]
          = l1 ++ ((⟨1, "swords", 11⟩ : Card), toEInt 5) :: l2
        ∧ (∀ p ∈ l1, p.2 < toEInt 5) ∧ (∀ p ∈ l2, p.2 ≤ toEInt 5) :=
  ⟨c5_selection_rule.1 traceB2 traceSt2 (fun _ => [0, 0, 0]) 10,
   c5_selection_rule.2.2 [(⟨1, "swords", 11⟩, toEInt 5)] ⟨1, "swords", 11⟩ (toEInt 5) rfl⟩
